import Mathlib

/-!
Verification of the markdown TOC tree builder and content transformer of
`server/libs/markdown.js`.

The flat-heading-to-tree algorithm `buildTreeFlatArray` is embedded as a
fuel-indexed function `buildF`.  One unit of fuel is consumed per entry into
the JS function body / per loop iteration, so a result other than
`BOut.fuelOut` means the modelled recursion has terminated; we prove that the
standard fuel `2 * array.length + 1` always suffices.  The JS expression
`requestedLevelTree[requestedLevelTree.length - 1].nodes = nextLevelTree`
throws a TypeError when `requestedLevelTree` is empty (indexing at -1 yields
`undefined`); this is modelled by the `BOut.crash` outcome.
-/

namespace Wiki

/-- A flat heading record as produced by the heading extraction loop of
`parseTree`: text content, anchor slug and heading level. -/
structure HNode where
  content : String
  anchor : String
  level : Nat
deriving DecidableEq

/-- A node of the TOC tree produced by `buildTreeFlatArray`:
`{ content, anchor, nodes }`. -/
inductive TocNode where
  | mk (content : String) (anchor : String) (nodes : List TocNode)

/-- Text content of a TOC node. -/
def TocNode.content : TocNode → String
  | .mk c _ _ => c

/-- Anchor slug of a TOC node. -/
def TocNode.anchor : TocNode → String
  | .mk _ a _ => a

/-- Children of a TOC node. -/
def TocNode.nodes : TocNode → List TocNode
  | .mk _ _ ns => ns

/-- Outcome of a run of the tree builder: out of fuel (modelling artefact,
never reached with the standard fuel), a thrown TypeError, or normal return
of the built forest together with the final cursor position
(`requestedLevelContext.startFrom` after the call). -/
inductive BOut where
  | fuelOut
  | crash
  | ok (tree : List TocNode) (next : Nat)

/-- `requestedLevelTree[requestedLevelTree.length - 1].nodes = ns`:
overwrite the `nodes` field of the last element of a non-empty list
(the empty-list case never reaches this operation in the model). -/
def setLastNodes : List TocNode → List TocNode → List TocNode
  | [], _ => []
  | [TocNode.mk c a _], ns => [TocNode.mk c a ns]
  | x :: y :: rest, ns => x :: setLastNodes (y :: rest) ns

/-- The body of `buildTreeFlatArray(array, requestedLevel,
requestedLevelContext)`.  `i` is the loop variable `index`, `acc` is
`requestedLevelTree`.  The three loop branches: a node of lower level breaks
the loop; a node of equal level is appended with empty children; a node of
greater level triggers a recursive call at the current node's own level,
whose result is assigned to the last accumulated node (throwing when the
accumulator is empty), after which the loop resumes at the returned index. -/
def buildF (a : List HNode) : Nat → Nat → Nat → List TocNode → BOut
  | 0, _, _, _ => .fuelOut
  | fuel + 1, lvl, i, acc =>
    match a[i]? with
    | none => .ok acc i
    | some c =>
      if c.level < lvl then
        .ok acc i
      else if c.level = lvl then
        buildF a fuel lvl (i + 1) (acc ++ [TocNode.mk c.content c.anchor []])
      else
        match buildF a fuel c.level i [] with
        | .fuelOut => .fuelOut
        | .crash => .crash
        | .ok sub j =>
          if acc.isEmpty then .crash
          else buildF a fuel lvl j (setLastNodes acc sub)

/-- `buildTreeFlatArray(array, requestedLevel, { startFrom })`.
`requestedLevel || 1` maps the falsy level 0 to 1; the default context start
is the explicit `startFrom` argument.  The fuel `2 * a.length + 1` is proved
sufficient below (`buildTreeFlatArray_terminates`). -/
def buildTreeFlatArray (a : List HNode) (requestedLevel : Nat) (startFrom : Nat) : BOut :=
  buildF a (2 * a.length + 1) (if requestedLevel = 0 then 1 else requestedLevel) startFrom []

mutual

/-- Depth-first flattening of a TOC node: the node's own
`(content, anchor)` pair followed by the flattening of its children. -/
def flattenNode : TocNode → List (String × String)
  | .mk c a ns => (c, a) :: flattenForest ns

/-- Depth-first flattening of a TOC forest, in order. -/
def flattenForest : List TocNode → List (String × String)
  | [] => []
  | n :: ns => flattenNode n ++ flattenForest ns

end

/-- C1: the worked example.  Input `[{H1,"A"},{H2,"B"},{H3,"C"},{H2,"D"}]`
(anchors left empty), default start level 1, start index 0: the builder
returns one root "A" whose children are "B" (with sole child "C", itself
childless) followed by "D" (childless), having consumed all four records. -/
theorem buildTree_example_forest :
    buildTreeFlatArray
      [⟨"A", "", 1⟩, ⟨"B", "", 2⟩, ⟨"C", "", 3⟩, ⟨"D", "", 2⟩] 1 0 =
    .ok
      [TocNode.mk "A" ""
        [TocNode.mk "B" "" [TocNode.mk "C" "" []],
         TocNode.mk "D" "" []]] 4 := rfl

/-- C2: the orphan-deep-heading input `[{level 2, "A"}]` at requested level 1
makes the builder throw: the recursive call returns the subtree, and the
assignment to the last element of the still-empty result array is a
TypeError (`.crash`).  The code violates the spec's "must not crash". -/
theorem buildTree_orphan_crashes :
    buildTreeFlatArray [⟨"A", "", 2⟩] 1 0 = .crash := rfl

/-- The cursor never moves backwards: a normal return's final index is at
least the starting index. -/
theorem buildF_le (a : List HNode) :
    ∀ fuel lvl i acc t j, buildF a fuel lvl i acc = .ok t j → i ≤ j := by
  intro fuel
  induction fuel with
  | zero => intro lvl i acc t j h; simp [buildF] at h
  | succ f ih =>
    intro lvl i acc t j h
    cases hget : a[i]? with
    | none =>
      simp only [buildF, hget] at h
      cases h
      exact Nat.le_refl _
    | some c =>
      simp only [buildF, hget] at h
      by_cases h1 : c.level < lvl
      · rw [if_pos h1] at h
        cases h
        exact Nat.le_refl _
      · rw [if_neg h1] at h
        by_cases h2 : c.level = lvl
        · rw [if_pos h2] at h
          exact Nat.le_trans (Nat.le_succ i) (ih _ _ _ _ _ h)
        · rw [if_neg h2] at h
          split at h
          · cases h
          · cases h
          · rename_i sub k hin
            split at h
            · cases h
            · exact Nat.le_trans (ih _ _ _ _ _ hin) (ih _ _ _ _ _ h)

/-- Fuel sufficiency: `2 * (remaining elements) + 1` units of fuel never run
out.  The inner recursive call starts at the current index but its first
iteration necessarily takes the equal-level branch, which is made explicit
here by unfolding that first step. -/
theorem buildF_ne_fuelOut (a : List HNode) :
    ∀ fuel lvl i acc, 2 * (a.length - i) + 1 ≤ fuel →
      buildF a fuel lvl i acc ≠ .fuelOut := by
  intro fuel
  induction fuel using Nat.strong_induction_on with
  | _ fuel ih =>
    intro lvl i acc hfuel
    obtain ⟨f, rfl⟩ : ∃ f, fuel = f + 1 := ⟨fuel - 1, by omega⟩
    cases hget : a[i]? with
    | none => simp [buildF, hget]
    | some c =>
      have hilen : i < a.length := by
        by_contra hc
        rw [List.getElem?_eq_none (by omega)] at hget
        cases hget
      simp only [buildF, hget]
      by_cases h1 : c.level < lvl
      · simp [h1]
      · rw [if_neg h1]
        by_cases h2 : c.level = lvl
        · rw [if_pos h2]
          exact ih f (by omega) lvl (i + 1) _ (by omega)
        · rw [if_neg h2]
          obtain ⟨f', rfl⟩ : ∃ f', f = f' + 1 := ⟨f - 1, by omega⟩
          have hinner :
              buildF a (f' + 1) c.level i [] =
              buildF a f' c.level (i + 1) [TocNode.mk c.content c.anchor []] := by
            simp [buildF, hget]
          rw [hinner]
          split
          · rename_i heq
            exact absurd heq (ih f' (by omega) c.level (i + 1) _ (by omega))
          · simp
          · rename_i sub k heq
            have hik : i + 1 ≤ k := buildF_le a _ _ _ _ _ _ heq
            split
            · simp
            · exact ih (f' + 1) (by omega) lvl k _ (by omega)

/-- C10: `buildTreeFlatArray` terminates for every flat heading list, every
requested level and every starting index: with the standard fuel the
modelled computation never exhausts its budget, i.e. every run ends in a
normal return or in the (orphan-input) TypeError after finitely many steps. -/
theorem buildTreeFlatArray_terminates (a : List HNode) (requestedLevel startFrom : Nat) :
    buildTreeFlatArray a requestedLevel startFrom ≠ .fuelOut :=
  buildF_ne_fuelOut a _ _ startFrom [] (by omega)

/-- If `a.drop i` begins with `x`, then `a` has `x` at position `i` and the
drop at `i + 1` is the remaining tail. -/
theorem drop_cons_get (a : List HNode) :
    ∀ (i : Nat) (x : HNode) (xs : List HNode),
      a.drop i = x :: xs → a[i]? = some x ∧ a.drop (i + 1) = xs := by
  induction a with
  | nil => intro i x xs h; simp at h
  | cons y ys ih =>
    intro i x xs h
    cases i with
    | zero =>
      simp only [List.drop_zero] at h
      cases h
      simp
    | succ n =>
      simp only [List.drop_succ_cons] at h
      simpa [List.getElem?_cons_succ, List.drop_succ_cons] using ih n x xs h

/-- If `a.drop i` is empty then there is no element at position `i`. -/
theorem drop_nil_get (a : List HNode) :
    ∀ i : Nat, a.drop i = [] → a[i]? = none := by
  induction a with
  | nil => intro i _; simp
  | cons y ys ih =>
    intro i h
    cases i with
    | zero => simp at h
    | succ n =>
      simp only [List.drop_succ_cons] at h
      simpa using ih n h

/-- Dropping past a known segment. -/
theorem drop_add_segment (a : List HNode) :
    ∀ (s : List HNode) (i : Nat) (rest : List HNode),
      a.drop i = s ++ rest → a.drop (i + s.length) = rest := by
  intro s
  induction s with
  | nil => intro i rest h; simpa using h
  | cons x xs ih =>
    intro i rest h
    have h2 := (drop_cons_get a i x (xs ++ rest) (by simpa using h)).2
    have h3 := ih (i + 1) rest h2
    have he : i + (x :: xs).length = i + 1 + xs.length := by
      simp [List.length_cons]; omega
    rw [he]
    exact h3

/-- Flattening distributes over forest concatenation. -/
theorem flattenForest_append (l1 l2 : List TocNode) :
    flattenForest (l1 ++ l2) = flattenForest l1 ++ flattenForest l2 := by
  induction l1 with
  | nil => simp [flattenForest]
  | cons n ns ih => simp [flattenForest, ih]

/-- Overwriting the children of the last node of `acc ++ [node]`. -/
theorem setLastNodes_append (acc : List TocNode) (c a : String)
    (ns0 ns : List TocNode) :
    setLastNodes (acc ++ [TocNode.mk c a ns0]) ns = acc ++ [TocNode.mk c a ns] := by
  induction acc with
  | nil => rfl
  | cons x xs ih =>
    cases xs with
    | nil => cases x with | mk xc xa xn => rfl
    | cons y ys =>
      cases x with
      | mk xc xa xn =>
        simp only [List.cons_append] at ih ⊢
        rw [show setLastNodes (TocNode.mk xc xa xn :: y :: (ys ++ [TocNode.mk c a ns0])) ns =
            TocNode.mk xc xa xn :: setLastNodes (y :: (ys ++ [TocNode.mk c a ns0])) ns from rfl,
          ih]

/-- The `(content, anchor)` pair a heading record contributes to the
flattened outline. -/
def headingPair (h : HNode) : String × String := (h.content, h.anchor)

/-- Well-formed outline at level `lvl` (C3's hypothesis): the list is a
sequence of sections; each section starts with a heading at exactly `lvl`,
optionally followed by a non-empty well-formed block at some strictly deeper
level (its children); levels only ever reset to levels already on the
ancestor stack, i.e. no deeper heading precedes its ancestor level. -/
inductive WFF : Nat → List HNode → Prop where
  | nil (lvl : Nat) : WFF lvl []
  | consFlat (lvl : Nat) (h : HNode) (r : List HNode) :
      h.level = lvl → WFF lvl r → WFF lvl (h :: r)
  | consNest (lvl t : Nat) (h : HNode) (c r : List HNode) :
      h.level = lvl → lvl < t → c ≠ [] → WFF t c → WFF lvl r →
      WFF lvl (h :: (c ++ r))

/-- The first heading of a non-empty well-formed outline sits exactly at the
outline's level. -/
theorem WFF_head_level {lvl : Nat} {l : List HNode} (hw : WFF lvl l) :
    ∀ x xs, l = x :: xs → x.level = lvl := by
  cases hw with
  | nil => intro x xs h; cases h
  | consFlat lvl h r hl _ => intro x xs he; cases he; exact hl
  | consNest lvl t h c r hl _ _ _ _ =>
    intro x xs he
    cases he
    exact hl

/-- Main round-trip lemma: on a well-formed segment the builder consumes
exactly the segment, returns normally, and appends to the accumulator's
flattening exactly the segment's `(content, anchor)` pairs in source
order. -/
theorem buildF_wff (a : List HNode) {lvl : Nat} {l : List HNode} (hw : WFF lvl l) :
    ∀ i rest acc fuel,
      a.drop i = l ++ rest →
      (∀ x xs, rest = x :: xs → x.level < lvl) →
      2 * l.length + 1 ≤ fuel →
      ∃ t, buildF a fuel lvl i acc = .ok t (i + l.length) ∧
        flattenForest t = flattenForest acc ++ l.map headingPair := by
  induction hw with
  | nil lvl =>
    intro i rest acc fuel hdrop hrest hfuel
    obtain ⟨f, rfl⟩ : ∃ f, fuel = f + 1 := ⟨fuel - 1, by omega⟩
    simp only [List.nil_append] at hdrop
    refine ⟨acc, ?_, by simp⟩
    cases rest with
    | nil => simp [buildF, drop_nil_get a i hdrop]
    | cons x xs =>
      have hg := (drop_cons_get a i x xs hdrop).1
      have hx := hrest x xs rfl
      simp [buildF, hg, hx]
  | consFlat lvl h r hl hwr ihr =>
    intro i rest acc fuel hdrop hrest hfuel
    obtain ⟨f, rfl⟩ : ∃ f, fuel = f + 1 := ⟨fuel - 1, by omega⟩
    rw [List.cons_append] at hdrop
    obtain ⟨hg, hdrop1⟩ := drop_cons_get a i h (r ++ rest) hdrop
    obtain ⟨t, ht, hflat⟩ :=
      ihr (i + 1) rest (acc ++ [TocNode.mk h.content h.anchor []]) f hdrop1 hrest (by
        simp only [List.length_cons] at hfuel
        omega)
    refine ⟨t, ?_, ?_⟩
    · have hstep : buildF a (f + 1) lvl i acc =
          buildF a f lvl (i + 1) (acc ++ [TocNode.mk h.content h.anchor []]) := by
        simp [buildF, hg, hl]
      have he2 : i + (h :: r).length = i + 1 + r.length := by
        simp only [List.length_cons]; omega
      rw [hstep, ht, he2]
    · rw [hflat, flattenForest_append]
      simp [flattenForest, flattenNode, headingPair]
  | consNest lvl tl h c r hl hlt hcne hwc hwr ihc ihr =>
    intro i rest acc fuel hdrop hrest hfuel
    have hclen : 1 ≤ c.length := List.length_pos.mpr hcne
    have hlen : (h :: (c ++ r)).length = 1 + c.length + r.length := by
      simp only [List.length_cons, List.length_append]; omega
    obtain ⟨f, rfl⟩ : ∃ f, fuel = f + 2 := ⟨fuel - 2, by rw [hlen] at hfuel; omega⟩
    rw [List.cons_append, List.append_assoc] at hdrop
    obtain ⟨hg, hdrop1⟩ := drop_cons_get a i h (c ++ (r ++ rest)) hdrop
    obtain ⟨c0, c', rfl⟩ : ∃ c0 c', c = c0 :: c' := by
      cases c with
      | nil => exact absurd rfl hcne
      | cons c0 c' => exact ⟨c0, c', rfl⟩
    have hg1 := (drop_cons_get a (i + 1) c0 (c' ++ (r ++ rest)) (by simpa using hdrop1)).1
    have hc0 : c0.level = tl := WFF_head_level hwc c0 c' rfl
    obtain ⟨tc, htc, hflc⟩ :=
      ihc (i + 1) (r ++ rest) [] f hdrop1 (by
        intro x xs hx
        cases r with
        | nil =>
          simp only [List.nil_append] at hx
          exact lt_trans (hrest x xs hx) hlt
        | cons r0 r' =>
          rw [List.cons_append] at hx
          injection hx with hx1 hx2
          rw [← hx1, WFF_head_level hwr r0 r' rfl]
          exact hlt) (by rw [hlen] at hfuel; omega)
    have hdrop2 : a.drop (i + 1 + (c0 :: c').length) = r ++ rest :=
      drop_add_segment a (c0 :: c') (i + 1) (r ++ rest) hdrop1
    obtain ⟨tr, htr, hfltr⟩ :=
      ihr (i + 1 + (c0 :: c').length) rest
        (setLastNodes (acc ++ [TocNode.mk h.content h.anchor []]) tc) f hdrop2 hrest (by
        rw [hlen] at hfuel
        simp only [List.length_cons] at hfuel ⊢
        omega)
    refine ⟨tr, ?_, ?_⟩
    · have hstep1 : buildF a (f + 2) lvl i acc =
          buildF a (f + 1) lvl (i + 1) (acc ++ [TocNode.mk h.content h.anchor []]) := by
        simp [buildF, hg, hl]
      have hstep2 : buildF a (f + 1) lvl (i + 1) (acc ++ [TocNode.mk h.content h.anchor []]) =
          buildF a f lvl (i + 1 + (c0 :: c').length)
            (setLastNodes (acc ++ [TocNode.mk h.content h.anchor []]) tc) := by
        have hnlt : ¬ tl < lvl := by omega
        have hne : ¬ tl = lvl := by omega
        simp only [buildF, hg1, hc0, htc]
        simp [hnlt, hne, List.isEmpty_iff]
      have he3 : i + (h :: (c0 :: c' ++ r)).length =
          i + 1 + (c0 :: c').length + r.length := by
        simp only [List.length_cons, List.length_append]; omega
      rw [hstep1, hstep2, htr, he3]
    · simp only [flattenForest, List.nil_append] at hflc
      rw [hfltr, setLastNodes_append, flattenForest_append]
      simp only [flattenForest, flattenNode, List.append_nil]
      rw [hflc]
      simp [headingPair, List.map_append]

/-- C3: for every well-formed flat heading list (levels monotone within a
section, resetting only to ancestor levels), the builder at default start
level 1 returns normally having consumed the whole list, and the depth-first
flattening of the produced forest is exactly the original list's
`(content, anchor)` pairs in source order — no reordering, no loss. -/
theorem buildTree_flatten_roundtrip (l : List HNode) (hw : WFF 1 l) :
    ∃ t, buildTreeFlatArray l 1 0 = .ok t l.length ∧
      flattenForest t = l.map headingPair := by
  obtain ⟨t, ht, hflat⟩ :=
    buildF_wff l hw 0 [] [] (2 * l.length + 1) (by simp) (by intro x xs h; cases h)
      (by omega)
  exact ⟨t, by simpa [buildTreeFlatArray] using ht, by simpa [flattenForest] using hflat⟩

/-- An element fetched by index is a member of the list. -/
theorem getElem?_mem_h (a : List HNode) :
    ∀ (i : Nat) (c : HNode), a[i]? = some c → c ∈ a := by
  induction a with
  | nil => intro i c h; simp at h
  | cons y ys ih =>
    intro i c h
    cases i with
    | zero => simp at h; simp [h]
    | succ n =>
      simp only [List.getElem?_cons_succ] at h
      exact List.mem_cons_of_mem y (ih n c h)

/-- Every `(content, anchor)` pair in a built forest comes from the
accumulator or from some heading record of the input array: the builder
invents no nodes. -/
theorem buildF_origin (a : List HNode) :
    ∀ fuel lvl i acc t j, buildF a fuel lvl i acc = .ok t j →
      ∀ p ∈ flattenForest t, p ∈ flattenForest acc ∨ ∃ h ∈ a, p = headingPair h := by
  intro fuel
  induction fuel with
  | zero => intro lvl i acc t j h; simp [buildF] at h
  | succ f ih =>
    intro lvl i acc t j h p hp
    cases hget : a[i]? with
    | none =>
      simp only [buildF, hget] at h
      cases h
      exact Or.inl hp
    | some c =>
      have hc : c ∈ a := getElem?_mem_h a i c hget
      simp only [buildF, hget] at h
      by_cases h1 : c.level < lvl
      · rw [if_pos h1] at h; cases h; exact Or.inl hp
      · rw [if_neg h1] at h
        by_cases h2 : c.level = lvl
        · rw [if_pos h2] at h
          rcases ih _ _ _ _ _ h p hp with hin | hex
          · rw [flattenForest_append] at hin
            rcases List.mem_append.mp hin with h3 | h3
            · exact Or.inl h3
            · right
              refine ⟨c, hc, ?_⟩
              simpa [flattenForest, flattenNode, headingPair] using h3
          · exact Or.inr hex
        · rw [if_neg h2] at h
          split at h
          · cases h
          · cases h
          · rename_i sub k hin
            split at h
            · cases h
            · rename_i hacc
              have haccne : acc ≠ [] := by simpa using hacc
              rcases List.eq_nil_or_concat acc with rfl | ⟨dl, x, hacc2⟩
              · exact absurd rfl haccne
              · rw [List.concat_eq_append] at hacc2
                subst hacc2
                cases x with
                | mk xc xa xns =>
                  rcases ih _ _ _ _ _ h p hp with h3 | hex
                  · rw [setLastNodes_append, flattenForest_append] at h3
                    rcases List.mem_append.mp h3 with h4 | h4
                    · refine Or.inl ?_
                      rw [flattenForest_append]
                      exact List.mem_append.mpr (Or.inl h4)
                    · simp only [flattenForest, flattenNode, List.append_nil] at h4
                      rcases List.mem_cons.mp h4 with h5 | h5
                      · refine Or.inl ?_
                        rw [flattenForest_append]
                        refine List.mem_append.mpr (Or.inr ?_)
                        simp [flattenForest, flattenNode, h5]
                      · rcases ih _ _ _ _ _ hin p h5 with h6 | hex
                        · simp [flattenForest] at h6
                        · exact Or.inr hex
                  · exact Or.inr hex

/-- A TOC node annotated with the level and position of the heading record
it was built from: the instrumented twin of `TocNode`, used to state C8's
invariant about originating headings.  Erasing the two extra fields
(`eraseAForest`) recovers exactly what `buildF` builds. -/
inductive ANode where
  | mk (content : String) (anchor : String) (level : Nat) (idx : Nat) (nodes : List ANode)

/-- Content of an annotated node. -/
def ANode.content : ANode → String
  | .mk c _ _ _ _ => c

/-- Anchor of an annotated node. -/
def ANode.anchor : ANode → String
  | .mk _ a _ _ _ => a

/-- Level of the heading the node was built from. -/
def ANode.level : ANode → Nat
  | .mk _ _ lv _ _ => lv

/-- Index (in the flat input array) of the heading the node was built
from. -/
def ANode.idx : ANode → Nat
  | .mk _ _ _ ix _ => ix

/-- Children of an annotated node. -/
def ANode.nodes : ANode → List ANode
  | .mk _ _ _ _ ns => ns

/-- Outcome of the instrumented builder. -/
inductive ABOut where
  | fuelOut
  | crash
  | ok (tree : List ANode) (next : Nat)

/-- Overwrite the children of the last annotated node. -/
def asetLast : List ANode → List ANode → List ANode
  | [], _ => []
  | [ANode.mk c a lv ix _], ns => [ANode.mk c a lv ix ns]
  | x :: y :: rest, ns => x :: asetLast (y :: rest) ns

/-- The instrumented builder: identical control flow to `buildF`, but each
node additionally records the level and index of its source heading. -/
def abuildF (a : List HNode) : Nat → Nat → Nat → List ANode → ABOut
  | 0, _, _, _ => .fuelOut
  | fuel + 1, lvl, i, acc =>
    match a[i]? with
    | none => .ok acc i
    | some c =>
      if c.level < lvl then
        .ok acc i
      else if c.level = lvl then
        abuildF a fuel lvl (i + 1) (acc ++ [ANode.mk c.content c.anchor c.level i []])
      else
        match abuildF a fuel c.level i [] with
        | .fuelOut => .fuelOut
        | .crash => .crash
        | .ok sub j =>
          if acc.isEmpty then .crash
          else abuildF a fuel lvl j (asetLast acc sub)

mutual

/-- Erase the annotations of a node. -/
def eraseANode : ANode → TocNode
  | .mk c a _ _ ns => TocNode.mk c a (eraseAForest ns)

/-- Erase the annotations of a forest. -/
def eraseAForest : List ANode → List TocNode
  | [] => []
  | n :: ns => eraseANode n :: eraseAForest ns

end

/-- Erase the annotations of a builder outcome. -/
def eraseABOut : ABOut → BOut
  | .fuelOut => .fuelOut
  | .crash => .crash
  | .ok t j => .ok (eraseAForest t) j

mutual

/-- All annotated nodes of a node's subtree, the node itself included. -/
def allANode : ANode → List ANode
  | .mk c a lv ix ns => ANode.mk c a lv ix ns :: allAForest ns

/-- All annotated nodes of a forest's subtrees. -/
def allAForest : List ANode → List ANode
  | [] => []
  | n :: ns => allANode n ++ allAForest ns

end

/-- Erasure distributes over concatenation. -/
theorem eraseAForest_append (l1 l2 : List ANode) :
    eraseAForest (l1 ++ l2) = eraseAForest l1 ++ eraseAForest l2 := by
  induction l1 with
  | nil => rfl
  | cons n ns ih => simp [eraseAForest, ih]

/-- Erasure commutes with overwriting the last node's children. -/
theorem erase_asetLast (l ns : List ANode) :
    eraseAForest (asetLast l ns) = setLastNodes (eraseAForest l) (eraseAForest ns) := by
  induction l with
  | nil => rfl
  | cons x xs ih =>
    cases xs with
    | nil => cases x with | mk c a lv ix ns0 => rfl
    | cons y ys =>
      cases x with
      | mk c a lv ix ns0 =>
        show eraseANode (ANode.mk c a lv ix ns0) :: eraseAForest (asetLast (y :: ys) ns) =
          setLastNodes (eraseANode (ANode.mk c a lv ix ns0) ::
            eraseANode y :: eraseAForest ys) (eraseAForest ns)
        rw [show setLastNodes (eraseANode (ANode.mk c a lv ix ns0) ::
            eraseANode y :: eraseAForest ys) (eraseAForest ns) =
            eraseANode (ANode.mk c a lv ix ns0) ::
              setLastNodes (eraseANode y :: eraseAForest ys) (eraseAForest ns) from rfl]
        rw [ih]
        rfl

/-- A forest's erasure is empty exactly when the forest is. -/
theorem eraseAForest_isEmpty (l : List ANode) :
    (eraseAForest l).isEmpty = l.isEmpty := by
  cases l with
  | nil => rfl
  | cons x xs => rfl

/-- The plain builder is the erasure of the instrumented one. -/
theorem buildF_eq_erase (a : List HNode) :
    ∀ fuel lvl i acc,
      buildF a fuel lvl i (eraseAForest acc) = eraseABOut (abuildF a fuel lvl i acc) := by
  intro fuel
  induction fuel with
  | zero => intro lvl i acc; rfl
  | succ f ih =>
    intro lvl i acc
    cases hget : a[i]? with
    | none => simp [buildF, abuildF, hget, eraseABOut]
    | some c =>
      simp only [buildF, abuildF, hget]
      by_cases h1 : c.level < lvl
      · simp [h1, eraseABOut]
      · rw [if_neg h1, if_neg h1]
        by_cases h2 : c.level = lvl
        · rw [if_pos h2, if_pos h2]
          rw [← ih lvl (i + 1) (acc ++ [ANode.mk c.content c.anchor c.level i []])]
          rw [eraseAForest_append]
          rfl
        · rw [if_neg h2, if_neg h2]
          have hin := ih c.level i []
          cases habs : abuildF a f c.level i [] with
          | fuelOut =>
            rw [habs] at hin
            rw [show eraseAForest ([] : List ANode) = [] from rfl] at hin
            rw [hin]
            rfl
          | crash =>
            rw [habs] at hin
            rw [show eraseAForest ([] : List ANode) = [] from rfl] at hin
            rw [hin]
            rfl
          | ok sub j =>
            rw [habs] at hin
            rw [show eraseAForest ([] : List ANode) = [] from rfl] at hin
            rw [hin]
            show (if (eraseAForest acc).isEmpty then BOut.crash
              else buildF a f lvl j (setLastNodes (eraseAForest acc) (eraseAForest sub))) =
              eraseABOut (if acc.isEmpty then ABOut.crash else abuildF a f lvl j (asetLast acc sub))
            rw [eraseAForest_isEmpty]
            by_cases hacc : acc.isEmpty
            · simp [hacc, eraseABOut]
            · simp only [hacc, if_neg, Bool.false_eq_true, if_false]
              rw [← erase_asetLast]
              exact ih lvl j (asetLast acc sub)

/-- `allAForest` distributes over concatenation. -/
theorem allAForest_append (l1 l2 : List ANode) :
    allAForest (l1 ++ l2) = allAForest l1 ++ allAForest l2 := by
  induction l1 with
  | nil => rfl
  | cons n ns ih => simp [allAForest, ih]

/-- A root of a forest is among all its nodes. -/
theorem mem_allAForest_self (l : List ANode) : ∀ n ∈ l, n ∈ allAForest l := by
  induction l with
  | nil => intro n hn; cases hn
  | cons x xs ih =>
    intro n hn
    rcases List.mem_cons.mp hn with rfl | h
    · show n ∈ allANode n ++ allAForest xs
      refine List.mem_append.mpr (Or.inl ?_)
      cases n with | mk c a lv ix ns => exact List.mem_cons_self _ _
    · show n ∈ allANode x ++ allAForest xs
      exact List.mem_append.mpr (Or.inr (ih n h))

/-- Overwriting the children of the last node of `dl ++ [node]`,
annotated version. -/
theorem asetLast_append (dl : List ANode) (c a : String) (lv ix : Nat)
    (ns0 ns : List ANode) :
    asetLast (dl ++ [ANode.mk c a lv ix ns0]) ns = dl ++ [ANode.mk c a lv ix ns] := by
  induction dl with
  | nil => rfl
  | cons x xs ih =>
    cases xs with
    | nil => cases x with | mk xc xa xlv xix xns => rfl
    | cons y ys =>
      cases x with
      | mk xc xa xlv xix xns =>
        simp only [List.cons_append] at ih ⊢
        rw [show asetLast (ANode.mk xc xa xlv xix xns :: y ::
            (ys ++ [ANode.mk c a lv ix ns0])) ns =
            ANode.mk xc xa xlv xix xns ::
              asetLast (y :: (ys ++ [ANode.mk c a lv ix ns0])) ns from rfl,
          ih]

/-- Two lists ending in a singleton agree componentwise. -/
theorem append_one_inj {α : Type} (l1 l2 : List α) (x y : α)
    (h : l1 ++ [x] = l2 ++ [y]) : l1 = l2 ∧ x = y := by
  have h2 := congrArg List.reverse h
  simp only [List.reverse_append, List.reverse_cons, List.reverse_nil,
    List.nil_append, List.singleton_append] at h2
  injection h2 with hxy hl
  refine ⟨?_, hxy⟩
  have h3 := congrArg List.reverse hl
  simpa using h3

/-- C8's origin property: the node records faithfully the content, anchor
and level of the heading at its recorded source index. -/
def OriginOk (a : List HNode) (n : ANode) : Prop :=
  ∃ h, a[n.idx]? = some h ∧ h.content = n.content ∧ h.anchor = n.anchor ∧
    h.level = n.level

/-- C8's structural property at one node: every child originates from a
heading of strictly greater level, positioned later in the source list, and
no heading at or below the node's level lies strictly between the node's
heading and the child's heading in source order. -/
def ChildOk (a : List HNode) (n : ANode) : Prop :=
  ∀ c ∈ n.nodes, n.level < c.level ∧ n.idx < c.idx ∧
    ∀ k x, n.idx < k → k < c.idx → a[k]? = some x → n.level < x.level

/-- Invariant of the instrumented builder: starting from an accumulator of
level-`lvl` roots built from earlier headings, a normal return consumes only
headings of level at least `lvl`, produces roots at exactly `lvl` and
satisfies `OriginOk` and `ChildOk` everywhere. -/
theorem abuildF_inv (a : List HNode) :
    ∀ fuel lvl i acc t j,
      abuildF a fuel lvl i acc = .ok t j →
      (∀ n ∈ acc, n.level = lvl ∧ n.idx < i) →
      (∀ n ∈ allAForest acc, OriginOk a n ∧ ChildOk a n) →
      (∀ dl p, acc = dl ++ [p] →
        ∀ k x, p.idx < k → k < i → a[k]? = some x → lvl < x.level) →
      i ≤ j ∧
      (∀ k x, i ≤ k → k < j → a[k]? = some x → lvl ≤ x.level) ∧
      (∀ n ∈ t, n.level = lvl ∧ n.idx < j ∧ (i ≤ n.idx ∨ ∃ m ∈ acc, n.idx = m.idx)) ∧
      (∀ n ∈ allAForest t, OriginOk a n ∧ ChildOk a n) := by
  intro fuel
  induction fuel with
  | zero => intro lvl i acc t j h _ _ _; simp [abuildF] at h
  | succ f ih =>
    intro lvl i acc t j h hroots hall hgap
    cases hget : a[i]? with
    | none =>
      simp only [abuildF, hget] at h
      cases h
      refine ⟨Nat.le_refl _, ?_, ?_, hall⟩
      · intro k x hk1 hk2; omega
      · intro n hn
        obtain ⟨hl, hi⟩ := hroots n hn
        exact ⟨hl, hi, Or.inr ⟨n, hn, rfl⟩⟩
    | some c =>
      simp only [abuildF, hget] at h
      by_cases h1 : c.level < lvl
      · rw [if_pos h1] at h
        cases h
        refine ⟨Nat.le_refl _, ?_, ?_, hall⟩
        · intro k x hk1 hk2; omega
        · intro n hn
          obtain ⟨hl, hi⟩ := hroots n hn
          exact ⟨hl, hi, Or.inr ⟨n, hn, rfl⟩⟩
      · rw [if_neg h1] at h
        by_cases h2 : c.level = lvl
        · rw [if_pos h2] at h
          obtain ⟨hj1, hP2, hP3, hP4⟩ :=
            ih lvl (i + 1) (acc ++ [ANode.mk c.content c.anchor c.level i []]) t j h
              (by
                intro n hn
                rcases List.mem_append.mp hn with h3 | h3
                · obtain ⟨hl, hi⟩ := hroots n h3
                  exact ⟨hl, by omega⟩
                · rcases List.mem_singleton.mp h3 with rfl
                  exact ⟨by simpa [ANode.level] using h2, by simp [ANode.idx]⟩)
              (by
                intro n hn
                rw [allAForest_append] at hn
                rcases List.mem_append.mp hn with h3 | h3
                · exact hall n h3
                · have h4 : n = ANode.mk c.content c.anchor c.level i [] := by
                    simpa [allAForest, allANode] using h3
                  subst h4
                  constructor
                  · exact ⟨c, hget, rfl, rfl, rfl⟩
                  · intro ch hch
                    simp [ANode.nodes] at hch)
              (by
                intro dl p hdp k x hk1 hk2 hkx
                obtain ⟨hdl, hp⟩ :=
                  append_one_inj acc dl (ANode.mk c.content c.anchor c.level i []) p hdp
                rw [← hp] at hk1
                simp only [ANode.idx] at hk1
                omega)
          refine ⟨by omega, ?_, ?_, hP4⟩
          · intro k x hk1 hk2 hkx
            by_cases hk : k = i
            · subst hk
              rw [hget] at hkx
              injection hkx with hcx
              subst hcx
              omega
            · exact hP2 k x (by omega) hk2 hkx
          · intro n hn
            obtain ⟨hl, hilt, hd⟩ := hP3 n hn
            refine ⟨hl, hilt, ?_⟩
            rcases hd with h3 | ⟨m, hm, hidx⟩
            · exact Or.inl (by omega)
            · rcases List.mem_append.mp hm with h4 | h4
              · exact Or.inr ⟨m, h4, hidx⟩
              · rcases List.mem_singleton.mp h4 with rfl
                left
                rw [hidx]
                simp [ANode.idx]
        · rw [if_neg h2] at h
          have hlt : lvl < c.level := by omega
          split at h
          · cases h
          · cases h
          · rename_i sub k1 hin
            split at h
            · cases h
            · rename_i hacc
              have haccne : acc ≠ [] := by simpa using hacc
              obtain ⟨hI1, hI2, hI3, hI4⟩ := ih c.level i [] sub k1 hin
                (by intro n hn; cases hn)
                (by intro n hn; simp [allAForest] at hn)
                (by intro dl p hdp k x hx1 hx2 hx3; simp at hdp)
              have hI3' : ∀ n ∈ sub, n.level = c.level ∧ n.idx < k1 ∧ i ≤ n.idx := by
                intro n hn
                obtain ⟨hl, hix, hd⟩ := hI3 n hn
                refine ⟨hl, hix, ?_⟩
                rcases hd with h3 | ⟨m, hm, _⟩
                · exact h3
                · cases hm
              rcases List.eq_nil_or_concat acc with rfl | ⟨dl, p, hacc2⟩
              · exact absurd rfl haccne
              · rw [List.concat_eq_append] at hacc2
                subst hacc2
                cases p with
                | mk pc pa plv pix pns =>
                  have hproot := hroots (ANode.mk pc pa plv pix pns) (by simp)
                  have hplv : plv = lvl := by simpa [ANode.level] using hproot.1
                  have hpix : pix < i := by simpa [ANode.idx] using hproot.2
                  have hgapp : ∀ k x, pix < k → k < i → a[k]? = some x → lvl < x.level := by
                    intro k x hk1 hk2 hkx
                    exact hgap dl (ANode.mk pc pa plv pix pns) rfl k x
                      (by simpa [ANode.idx] using hk1) hk2 hkx
                  rw [asetLast_append] at h
                  obtain ⟨hC1, hC2, hC3, hC4⟩ :=
                    ih lvl k1 (dl ++ [ANode.mk pc pa plv pix sub]) t j h
                      (by
                        intro n hn
                        rcases List.mem_append.mp hn with h3 | h3
                        · have h5 := hroots n (List.mem_append.mpr (Or.inl h3))
                          exact ⟨h5.1, by omega⟩
                        · rcases List.mem_singleton.mp h3 with rfl
                          refine ⟨by simpa [ANode.level] using hplv, ?_⟩
                          simp only [ANode.idx]
                          omega)
                      (by
                        intro n hn
                        rw [allAForest_append] at hn
                        rcases List.mem_append.mp hn with h3 | h3
                        · apply hall
                          rw [allAForest_append]
                          exact List.mem_append.mpr (Or.inl h3)
                        · have h4 : n ∈ ANode.mk pc pa plv pix sub :: allAForest sub := by
                            simpa [allAForest, allANode] using h3
                          rcases List.mem_cons.mp h4 with rfl | h5
                          · constructor
                            · have hOp := (hall (ANode.mk pc pa plv pix pns)
                                (mem_allAForest_self _ _ (by simp))).1
                              obtain ⟨hh, hh1, hh2, hh3, hh4⟩ := hOp
                              exact ⟨hh, hh1, hh2, hh3, hh4⟩
                            · intro ch hch
                              have hch' : ch ∈ sub := by simpa [ANode.nodes] using hch
                              obtain ⟨hchl, hchi, hchidx⟩ := hI3' ch hch'
                              refine ⟨?_, ?_, ?_⟩
                              · rw [show (ANode.mk pc pa plv pix sub).level = plv from rfl,
                                  hplv, hchl]
                                exact hlt
                              · rw [show (ANode.mk pc pa plv pix sub).idx = pix from rfl]
                                omega
                              · intro k x hk1 hk2 hkx
                                have hk1x : pix < k := hk1
                                rw [show (ANode.mk pc pa plv pix sub).level = plv from rfl, hplv]
                                by_cases hki : k < i
                                · exact hgapp k x hk1x hki hkx
                                · have := hI2 k x (by omega) (by omega) hkx
                                  omega
                          · exact hI4 n h5)
                      (by
                        intro dl2 p2 hdp k x hk1 hk2 hkx
                        obtain ⟨hdl2, hp2⟩ :=
                          append_one_inj dl dl2 (ANode.mk pc pa plv pix sub) p2 hdp
                        rw [← hp2] at hk1
                        simp only [ANode.idx] at hk1
                        by_cases hki : k < i
                        · exact hgapp k x hk1 hki hkx
                        · have := hI2 k x (by omega) hk2 hkx
                          omega)
                  refine ⟨by omega, ?_, ?_, hC4⟩
                  · intro k x hk1 hk2 hkx
                    by_cases hkk : k < k1
                    · have := hI2 k x hk1 hkk hkx
                      omega
                    · exact hC2 k x (by omega) hk2 hkx
                  · intro n hn
                    obtain ⟨hl, hij, hd⟩ := hC3 n hn
                    refine ⟨hl, hij, ?_⟩
                    rcases hd with h3 | ⟨m, hm, hidx⟩
                    · exact Or.inl (by omega)
                    · rcases List.mem_append.mp hm with h4 | h4
                      · exact Or.inr ⟨m, List.mem_append.mpr (Or.inl h4), hidx⟩
                      · rcases List.mem_singleton.mp h4 with rfl
                        exact Or.inr ⟨ANode.mk pc pa plv pix pns, by simp,
                          by simpa [ANode.idx] using hidx⟩

/-- C8: every forest normally returned by the tree builder is the erasure of
an annotated forest in which every node originates from the heading at its
recorded index, every child's heading level strictly exceeds its parent's,
the child's heading comes later in source order, and no heading at or below
the parent's level lies between the parent's heading and the child's. -/
theorem buildTree_children_invariant (a : List HNode) (requestedLevel startFrom : Nat)
    (t : List TocNode) (j : Nat)
    (h : buildTreeFlatArray a requestedLevel startFrom = .ok t j) :
    ∃ t2, eraseAForest t2 = t ∧ ∀ n ∈ allAForest t2, OriginOk a n ∧ ChildOk a n := by
  unfold buildTreeFlatArray at h
  have he := buildF_eq_erase a (2 * a.length + 1)
    (if requestedLevel = 0 then 1 else requestedLevel) startFrom []
  rw [show eraseAForest ([] : List ANode) = [] from rfl] at he
  rw [he] at h
  cases habs : abuildF a (2 * a.length + 1)
      (if requestedLevel = 0 then 1 else requestedLevel) startFrom [] with
  | fuelOut => rw [habs] at h; cases h
  | crash => rw [habs] at h; cases h
  | ok t2 j2 =>
    rw [habs] at h
    simp only [eraseABOut] at h
    injection h with ht hj
    obtain ⟨_, _, _, h4⟩ := abuildF_inv a _ _ _ _ _ _ habs
      (by intro n hn; cases hn)
      (by intro n hn; simp [allAForest] at hn)
      (by intro dl p hdp k x hx1 hx2 hx3; simp at hdp)
    exact ⟨t2, ht, h4⟩

/-- Witness for C8 at the concrete example forest of C1, whose hypothesis is
discharged by computation. -/
theorem buildTree_children_invariant_witness :
    ∃ t2, eraseAForest t2 =
      [TocNode.mk "A" ""
        [TocNode.mk "B" "" [TocNode.mk "C" "" []], TocNode.mk "D" "" []]] ∧
      ∀ n ∈ allAForest t2,
        OriginOk [⟨"A", "", 1⟩, ⟨"B", "", 2⟩, ⟨"C", "", 3⟩, ⟨"D", "", 2⟩] n ∧
        ChildOk [⟨"A", "", 1⟩, ⟨"B", "", 2⟩, ⟨"C", "", 3⟩, ⟨"D", "", 2⟩] n :=
  buildTree_children_invariant
    [⟨"A", "", 1⟩, ⟨"B", "", 2⟩, ⟨"C", "", 3⟩, ⟨"D", "", 2⟩] 1 0
    [TocNode.mk "A" ""
      [TocNode.mk "B" "" [TocNode.mk "C" "" []], TocNode.mk "D" "" []]] 4 rfl

/-- `_.remove(array, pred)` leaves exactly the elements not matching the
predicate, in order. -/
def jsRemove (l : List HNode) (p : HNode → Bool) : List HNode :=
  l.filter (fun x => !(p x))

/-- The tail of `parseTree` after heading extraction: discard records with
nesting level greater than 3, then build the tree with default arguments. -/
def parseTreeToc (toc : List HNode) : BOut :=
  buildTreeFlatArray (jsRemove toc (fun n => decide (3 < n.level))) 1 0

/-- Removing levels above 3 first changes nothing: the depth filter already
discards them. -/
theorem jsRemove_filter_le (toc : List HNode) :
    jsRemove toc (fun n => decide (3 < n.level)) =
    jsRemove (toc.filter (fun h => decide (h.level ≤ 3))) (fun n => decide (3 < n.level)) := by
  induction toc with
  | nil => rfl
  | cons x xs ih =>
    by_cases hx : x.level ≤ 3
    · simp [jsRemove, List.filter_cons, hx, show ¬ 3 < x.level by omega] at ih ⊢
      exact ih
    · simp [jsRemove, List.filter_cons, hx, show 3 < x.level by omega] at ih ⊢
      exact ih

/-- C6: headings deeper than H3 are discarded before tree building.  The
outline built by `parseTree`'s tail is identical to the one built from the
input restricted to levels at most 3 (so deep headings do not affect the
nesting of retained headings), and every node of the built forest originates
from an input heading of level at most 3. -/
theorem parseTree_depth_filter (toc : List HNode) :
    parseTreeToc toc = parseTreeToc (toc.filter (fun h => decide (h.level ≤ 3))) ∧
    ∀ t j, parseTreeToc toc = .ok t j →
      ∀ p ∈ flattenForest t, ∃ h, h ∈ toc ∧ h.level ≤ 3 ∧ p = headingPair h := by
  constructor
  · unfold parseTreeToc
    rw [jsRemove_filter_le]
  · intro t j ht p hp
    have horigin :=
      buildF_origin (jsRemove toc (fun n => decide (3 < n.level))) _ _ _ _ _ _ ht p hp
    rcases horigin with hin | ⟨h, hmem, hpair⟩
    · simp [flattenForest] at hin
    · rw [jsRemove, List.mem_filter] at hmem
      refine ⟨h, hmem.1, ?_, hpair⟩
      have := hmem.2
      simp at this
      omega

/-- Witness for C6: a level-4 heading "E" after a level-1 heading "A" is
dropped; the sole node "A" originates from a retained heading. -/
theorem parseTree_depth_filter_witness :
    ∃ h, h ∈ ([⟨"A", "", 1⟩, ⟨"E", "", 4⟩] : List HNode) ∧ h.level ≤ 3 ∧
      ("A", "") = headingPair h :=
  (parseTree_depth_filter [⟨"A", "", 1⟩, ⟨"E", "", 4⟩]).2 [TocNode.mk "A" "" []] 1 rfl
    ("A", "") (by simp [flattenForest, flattenNode])

/-- Witness for C3 at the concrete example list of C1. -/
theorem buildTree_flatten_roundtrip_witness :
    ∃ t, buildTreeFlatArray
        [⟨"A", "", 1⟩, ⟨"B", "", 2⟩, ⟨"C", "", 3⟩, ⟨"D", "", 2⟩] 1 0 =
        .ok t 4 ∧
      flattenForest t = [("A", ""), ("B", ""), ("C", ""), ("D", "")] := by
  have hw : WFF 1 [⟨"A", "", 1⟩, ⟨"B", "", 2⟩, ⟨"C", "", 3⟩, ⟨"D", "", 2⟩] := by
    have h3 : WFF 3 [⟨"C", "", 3⟩] := WFF.consFlat 3 ⟨"C", "", 3⟩ [] rfl (WFF.nil 3)
    have h2 : WFF 2 [⟨"B", "", 2⟩, ⟨"C", "", 3⟩, ⟨"D", "", 2⟩] :=
      WFF.consNest 2 3 ⟨"B", "", 2⟩ [⟨"C", "", 3⟩] [⟨"D", "", 2⟩] rfl (by omega)
        (by simp) h3 (WFF.consFlat 2 ⟨"D", "", 2⟩ [] rfl (WFF.nil 2))
    exact WFF.consNest 1 2 ⟨"A", "", 1⟩
      [⟨"B", "", 2⟩, ⟨"C", "", 3⟩, ⟨"D", "", 2⟩] [] rfl (by omega) (by simp) h2 (WFF.nil 1)
  simpa using buildTree_flatten_roundtrip _ hw

/-- A node of the rendered markup tree as manipulated through cheerio in
`parseContent`: an element with tag name, class list, other attributes and
children; a text node; or a raw HTML fragment inserted by `replaceWith`
(the video-embed replacement strings are inserted as fragments and not
re-inspected by later rules on the modelled inputs). -/
inductive DNode where
  | el (tag : String) (classes : List String) (attrs : List (String × String))
      (children : List DNode)
  | txt (s : String)
  | raw (s : String)

/-- Whether a node is an element (`type === 'tag'`). -/
def DNode.isElem : DNode → Bool
  | .el _ _ _ _ => true
  | _ => false

/-- jQuery `addClass`: append the class unless already present. -/
def addClass (cl : List String) (c : String) : List String :=
  if cl.contains c then cl else cl ++ [c]

mutual

/-- cheerio `.text()`: concatenation of all descendant text. -/
def textOfNode : DNode → String
  | .el _ _ _ ch => textOfList ch
  | .txt s => s
  | .raw _ => ""

/-- `.text()` over a node list. -/
def textOfList : List DNode → String
  | [] => ""
  | n :: ns => textOfNode n ++ textOfList ns

end

/-- Rule 1 of `parseContent`: if the document's first element child is a
`p`, remove it when it has no children at all, or mark it `is-gapless` when
its only child is an `img` element.  Non-element leading nodes are kept and
skipped over, as `children().first()` only sees elements. -/
def stage1 : List DNode → List DNode
  | [] => []
  | DNode.el t cl ats ch :: rest =>
    if t = "p" then
      match ch with
      | [] => rest
      | [DNode.el it icl iat ich] =>
        if it = "img" then DNode.el t (addClass cl "is-gapless") ats ch :: rest
        else DNode.el t cl ats ch :: rest
      | _ => DNode.el t cl ats ch :: rest
    else DNode.el t cl ats ch :: rest
  | x :: rest => x :: stage1 rest

/-- Heading tags targeted by the header-link-stripping selectors. -/
def isHeading (t : String) : Bool := t = "h1" || t = "h2" || t = "h3"

/-- A direct-child link not carrying the `toc-anchor` permalink class:
the target of `h1 > a:not(.toc-anchor)` (and h2/h3 alike). -/
def isLinkNotToc : DNode → Bool
  | .el t acl _ _ => t = "a" && !(acl.contains "toc-anchor")
  | _ => false

mutual

/-- Rule 2 of `parseContent` at a node: inside any `h1`/`h2`/`h3`, a direct
child link without the `toc-anchor` class is replaced by its text content
(`cr(elm).replaceWith(cr(elm).text())`); everything else recurses. -/
def stage2Node : DNode → DNode
  | DNode.el t cl ats ch => DNode.el t cl ats (stage2List (isHeading t) ch)
  | DNode.txt s => DNode.txt s
  | DNode.raw s => DNode.raw s

/-- Rule 2 over a sibling list; the flag says whether the parent is a
heading, in which case matching links are unwrapped to text. -/
def stage2List : Bool → List DNode → List DNode
  | _, [] => []
  | inHeading, n :: ns =>
    (if inHeading && isLinkNotToc n then DNode.txt (textOfNode n) else stage2Node n)
      :: stage2List inHeading ns

end

/-- Scan the reversed child list for the last element child: if it carries
classes, return them together with the (still reversed) children where that
element's class attribute has been removed; otherwise `none` (no element
children, or a classless last element child, both no-ops in the code). -/
def bqScanRev : List DNode → Option (List String × List DNode)
  | [] => none
  | DNode.el t cl ats ich :: rest =>
    if cl = [] then none
    else some (cl, DNode.el t [] ats ich :: rest)
  | x :: rest => (bqScanRev rest).map (fun p => (p.1, x :: p.2))

/-- Rule 3 of `parseContent` at one top-level node: for a blockquote whose
last element child carries presentation classes, strip them from the child
(`removeAttr('class')`) and add them to the blockquote. -/
def stage3bq (n : DNode) : DNode :=
  match n with
  | DNode.el t cl ats ch =>
    if t = "blockquote" then
      match bqScanRev ch.reverse with
      | none => DNode.el t cl ats ch
      | some (lcl, rev2) => DNode.el t (lcl.foldl addClass cl) ats rev2.reverse
    else DNode.el t cl ats ch
  | x => x

/-- Rule 3 of `parseContent`: applied to the root's direct children only
(`cr.root().children('blockquote')`). -/
def stage3 (l : List DNode) : List DNode := l.map stage3bq

/-- Whether a node is one of the section-boundary heading elements
(`nextUntil` selector). -/
def isBoundary (bnd : List String) : DNode → Bool
  | DNode.el t _ _ _ => bnd.contains t
  | _ => false

/-- One step of section enclosure over an already-processed suffix `acc`:
when `x` is the trigger heading, its section is every following sibling up
to the first boundary heading; a fresh container `div` with class `cls` is
inserted right after the heading and the section's element nodes are moved
into it (`nextUntil` traverses element siblings only, so interleaved text
nodes stay behind, after the inserted container). -/
def encloseStep (trig : String) (bnd : List String) (cls : String)
    (x : DNode) (acc : List DNode) : List DNode :=
  match x with
  | DNode.el t tcl tats tch =>
    if t = trig then
      let sec := acc.takeWhile (fun n => !(isBoundary bnd n))
      let rest := acc.dropWhile (fun n => !(isBoundary bnd n))
      DNode.el t tcl tats tch ::
        DNode.el "div" [cls] [] (sec.filter DNode.isElem) ::
        (sec.filter (fun n => !(DNode.isElem n)) ++ rest)
    else DNode.el t tcl tats tch :: acc
  | _ => x :: acc

mutual

/-- Section enclosure inside a node's subtree (the selector is global, so
headings in nested sibling lists are processed too). -/
def encloseNode (trig : String) (bnd : List String) (cls : String) : DNode → DNode
  | DNode.el t cl ats ch => DNode.el t cl ats (encloseList trig bnd cls ch)
  | DNode.txt s => DNode.txt s
  | DNode.raw s => DNode.raw s

/-- Section enclosure over a sibling list, processed right to left: each
trigger heading captures its section from the already-processed suffix,
which is exactly the effect of the left-to-right cheerio loop since a
heading's section never extends past the next boundary heading. -/
def encloseList (trig : String) (bnd : List String) (cls : String) : List DNode → List DNode
  | [] => []
  | x :: xs =>
    encloseStep trig bnd cls (encloseNode trig bnd cls x) (encloseList trig bnd cls xs)

end

/-- Rule 4 of `parseContent`: wrap each H2 section in `div.indent-h2`,
boundaries H1/H2. -/
def stage4 : List DNode → List DNode := encloseList "h2" ["h1", "h2"] "indent-h2"

/-- Rule 4 continued: wrap each H3 section in `div.indent-h3`, boundaries
H1/H2/H3; runs after the H2 pass. -/
def stage5 : List DNode → List DNode := encloseList "h3" ["h1", "h2", "h3"] "indent-h3"

/-- An `img.align-center` element. -/
def isAlignImg : DNode → Bool
  | DNode.el t cl _ _ => t = "img" && cl.contains "align-center"
  | _ => false

mutual

/-- Rule 6 of `parseContent` at a node: if some child is an
`img.align-center`, the element gains the class (`parent().addClass`); when
the node itself is such an image (`strip` is set by the parent's traversal)
its own `align-center` class is removed.  The membership test inspects the
children before their own classes are stripped, matching the code's
add-then-remove order. -/
def stage7Node (strip : Bool) : DNode → DNode
  | DNode.el t cl ats ch =>
    DNode.el t
      (if ch.any isAlignImg then
        addClass (if strip then cl.filter (fun c => c ≠ "align-center") else cl) "align-center"
      else if strip then cl.filter (fun c => c ≠ "align-center") else cl)
      ats (stage7List ch)
  | DNode.txt s => DNode.txt s
  | DNode.raw s => DNode.raw s

/-- Rule 6 over a sibling list.  A top-level `img.align-center` has the root
as parent; the root is not an element, so its class is removed but added
nowhere visible, as in the code. -/
def stage7List : List DNode → List DNode
  | [] => []
  | n :: ns => stage7Node (isAlignImg n) n :: stage7List ns

end

/-- Abstract syntax of the JS regular expressions used by `markdown.js`
(video link patterns and the meta-comment pattern): literal characters,
character classes given as ranges with optional negation, `.` (any char but
a line terminator), `$` (end of input, no `m` flag), concatenation,
ordered alternation, greedy star and numbered capture groups. -/
inductive Re where
  | eps
  | chr (c : Char)
  | cls (ranges : List (Char × Char)) (neg : Bool)
  | dot
  | eol
  | seq (r1 r2 : Re)
  | alt (r1 r2 : Re)
  | star (r : Re)
  | group (n : Nat) (r : Re)

/-- Literal string pattern. -/
def strRe : List Char → Re
  | [] => .eps
  | c :: cs => .seq (.chr c) (strRe cs)

/-- Literal string pattern from a string literal. -/
def litRe (s : String) : Re := strRe s.data

/-- `r+` as `r r*`. -/
def plusRe (r : Re) : Re := .seq r (.star r)

/-- `r?`, greedy: try `r` first. -/
def optRe (r : Re) : Re := .alt r .eps

/-- `\w`. -/
def wordCh : Re := .cls [('a', 'z'), ('A', 'Z'), ('0', '9'), ('_', '_')] false

/-- `\d`. -/
def digitCh : Re := .cls [('0', '9')] false

/-- Character equality under the optional `i` flag. -/
def eqCi (ci : Bool) (c x : Char) : Bool :=
  if ci then c.toLower = x.toLower else c = x

/-- Character-class membership: the raw character or (with the `i` flag) its
lowercasing falls in one of the ranges; `neg` negates. -/
def clsMatch (ci : Bool) (ranges : List (Char × Char)) (neg : Bool) (x : Char) : Bool :=
  let inR := fun (y : Char) =>
    ranges.any (fun p => decide (p.1 ≤ y) && decide (y ≤ p.2))
  let mem := inR x || (ci && inR x.toLower)
  if neg then !mem else mem

/-- Executable size of a pattern, driving the matcher's fuel. -/
def reSize : Re → Nat
  | .eps => 1
  | .chr _ => 1
  | .cls _ _ => 1
  | .dot => 1
  | .eol => 1
  | .seq r1 r2 => reSize r1 + reSize r2 + 1
  | .alt r1 r2 => reSize r1 + reSize r2 + 1
  | .star r => reSize r + 1
  | .group _ r => reSize r + 1

/-- Helper for the matcher's termination measure. -/
theorem reMeasure_lt {L i i' s S : Nat} (hi : i ≤ i') (hs : s < S) :
    (L - i') * (s + 1) + s < (L - i) * (S + 1) + S := by
  have h1 : (L - i') * (s + 1) ≤ (L - i) * (s + 1) :=
    Nat.mul_le_mul_right _ (by omega)
  have h2 : (L - i') * (s + 1) ≤ (L - i) * S :=
    le_trans h1 (Nat.mul_le_mul_left _ (by omega))
  have h4 : (L - i) * (S + 1) = (L - i) * S + (L - i) := by ring
  omega

/-- Helper for the matcher's termination measure: strict progress in the
string position. -/
theorem reMeasure_lt_pos {L i i' S : Nat} (h1 : i < i') (h2 : i' ≤ L) :
    (L - i') * (S + 1) + S < (L - i) * (S + 1) + S := by
  have h3 : L - i' < L - i := by omega
  exact Nat.add_lt_add_right (Nat.mul_lt_mul_of_pos_right h3 (by omega)) S

/-- Option-valued traversal of a list, failing when any element does. -/
def optTraverse {α β : Type} (f : α → Option β) : List α → Option (List β)
  | [] => some []
  | x :: xs =>
    match f x with
    | none => none
    | some y =>
      match optTraverse f xs with
      | none => none
      | some ys => some (y :: ys)

/-- `optTraverse` succeeds when `f` does on every element. -/
theorem optTraverse_isSome {α β : Type} (f : α → Option β) :
    ∀ l : List α, (∀ x ∈ l, (f x).isSome) → (optTraverse f l).isSome := by
  intro l
  induction l with
  | nil => intro _; simp [optTraverse]
  | cons x xs ih =>
    intro h
    have hx := h x (List.mem_cons_self _ _)
    obtain ⟨y, hy⟩ := Option.isSome_iff_exists.mp hx
    have hxs := ih (fun z hz => h z (List.mem_cons_of_mem _ hz))
    obtain ⟨ys, hys⟩ := Option.isSome_iff_exists.mp hxs
    simp [optTraverse, hy, hys]

/-- Fuel-indexed backtracking matcher over the fixed character array `cs` at
position `i`: the list of all ways the pattern can match a prefix of the
remaining input, each as (number of characters consumed, captures recorded),
in JS priority order — left alternative first, greedy star longest first.  A
starred pattern only repeats on strict progress, as in JS (the
`i + p.1 ≤ cs.length` half of the progress test always holds, since a match
never consumes past the end).  `none` is fuel exhaustion, a modelling
artefact: `mtchF_isSome` shows the standard fuel of `mtch` never reaches
it. -/
def mtchF (cs : List Char) (ci : Bool) :
    Nat → Re → Nat → Option (List (Nat × List (Nat × List Char)))
  | 0, _, _ => none
  | fuel + 1, re, i =>
    match re with
    | .eps => some [(0, [])]
    | .chr c =>
      match cs[i]? with
      | some x => some (if eqCi ci c x then [(1, [])] else [])
      | none => some []
    | .cls rs neg =>
      match cs[i]? with
      | some x => some (if clsMatch ci rs neg x then [(1, [])] else [])
      | none => some []
    | .dot =>
      match cs[i]? with
      | some x => some (if x = '\n' || x = '\r' then [] else [(1, [])])
      | none => some []
    | .eol => some (if i < cs.length then [] else [(0, [])])
    | .seq r1 r2 =>
      match mtchF cs ci fuel r1 i with
      | none => none
      | some ps =>
        match optTraverse (fun p =>
            match mtchF cs ci fuel r2 (i + p.1) with
            | none => none
            | some qs => some (qs.map (fun q => (p.1 + q.1, q.2 ++ p.2)))) ps with
        | none => none
        | some qss => some qss.join
    | .alt r1 r2 =>
      match mtchF cs ci fuel r1 i with
      | none => none
      | some ps =>
        match mtchF cs ci fuel r2 i with
        | none => none
        | some qs => some (ps ++ qs)
    | .star r =>
      match mtchF cs ci fuel r i with
      | none => none
      | some ps =>
        match optTraverse (fun p =>
            match mtchF cs ci fuel (.star r) (i + p.1) with
            | none => none
            | some qs => some (qs.map (fun q => (p.1 + q.1, q.2 ++ p.2))))
            (ps.filter (fun p => 0 < p.1 && i + p.1 ≤ cs.length)) with
        | none => none
        | some qss => some (qss.join ++ [(0, [])])
    | .group n r =>
      match mtchF cs ci fuel r i with
      | none => none
      | some ps => some (ps.map (fun p => (p.1, (n, (cs.drop i).take p.1) :: p.2)))

/-- The measure `(remaining input) * (pattern size + 1) + pattern size`
strictly bounds the recursion depth of the matcher, so that much fuel plus
one is always enough. -/
theorem mtchF_isSome (cs : List Char) (ci : Bool) :
    ∀ fuel re i, (cs.length - i) * (reSize re + 1) + reSize re < fuel →
      (mtchF cs ci fuel re i).isSome := by
  intro fuel
  induction fuel using Nat.strong_induction_on with
  | _ fuel ih =>
    intro re i hf
    obtain ⟨f, rfl⟩ : ∃ f, fuel = f + 1 := ⟨fuel - 1, by omega⟩
    cases re with
    | eps => simp [mtchF]
    | chr c =>
      simp only [mtchF]
      cases cs[i]? <;> simp
    | cls rs neg =>
      simp only [mtchF]
      cases cs[i]? <;> simp
    | dot =>
      simp only [mtchF]
      cases cs[i]? <;> simp
    | eol => simp [mtchF]
    | seq r1 r2 =>
      have hm1 : (cs.length - i) * (reSize r1 + 1) + reSize r1 <
          (cs.length - i) * (reSize (Re.seq r1 r2) + 1) + reSize (Re.seq r1 r2) :=
        reMeasure_lt (Nat.le_refl _) (by simp [reSize]; omega)
      obtain ⟨ps, hps⟩ := Option.isSome_iff_exists.mp (ih f (by omega) r1 i (by omega))
      have htr : (optTraverse (fun p =>
          match mtchF cs ci f r2 (i + p.1) with
          | none => none
          | some qs => some (qs.map (fun q => (p.1 + q.1, q.2 ++ p.2)))) ps).isSome := by
        apply optTraverse_isSome
        intro p hp
        have hm2 : (cs.length - (i + p.1)) * (reSize r2 + 1) + reSize r2 <
            (cs.length - i) * (reSize (Re.seq r1 r2) + 1) + reSize (Re.seq r1 r2) :=
          reMeasure_lt (Nat.le_add_right _ _) (by simp [reSize]; omega)
        obtain ⟨qs, hqs⟩ :=
          Option.isSome_iff_exists.mp (ih f (by omega) r2 (i + p.1) (by omega))
        simp [hqs]
      obtain ⟨qss, hqss⟩ := Option.isSome_iff_exists.mp htr
      simp [mtchF, hps, hqss]
    | alt r1 r2 =>
      have hm1 : (cs.length - i) * (reSize r1 + 1) + reSize r1 <
          (cs.length - i) * (reSize (Re.alt r1 r2) + 1) + reSize (Re.alt r1 r2) :=
        reMeasure_lt (Nat.le_refl _) (by simp [reSize]; omega)
      have hm2 : (cs.length - i) * (reSize r2 + 1) + reSize r2 <
          (cs.length - i) * (reSize (Re.alt r1 r2) + 1) + reSize (Re.alt r1 r2) :=
        reMeasure_lt (Nat.le_refl _) (by simp [reSize]; omega)
      obtain ⟨ps, hps⟩ := Option.isSome_iff_exists.mp (ih f (by omega) r1 i (by omega))
      obtain ⟨qs, hqs⟩ := Option.isSome_iff_exists.mp (ih f (by omega) r2 i (by omega))
      simp [mtchF, hps, hqs]
    | star r =>
      have hm1 : (cs.length - i) * (reSize r + 1) + reSize r <
          (cs.length - i) * (reSize (Re.star r) + 1) + reSize (Re.star r) :=
        reMeasure_lt (Nat.le_refl _) (by simp [reSize])
      obtain ⟨ps, hps⟩ := Option.isSome_iff_exists.mp (ih f (by omega) r i (by omega))
      have htr : (optTraverse (fun p =>
          match mtchF cs ci f (.star r) (i + p.1) with
          | none => none
          | some qs => some (qs.map (fun q => (p.1 + q.1, q.2 ++ p.2))))
          (ps.filter (fun p => 0 < p.1 && i + p.1 ≤ cs.length))).isSome := by
        apply optTraverse_isSome
        intro p hp
        have hcond := (List.mem_filter.mp hp).2
        have h0 : 0 < p.1 ∧ i + p.1 ≤ cs.length := by simpa using hcond
        have hm2 : (cs.length - (i + p.1)) * (reSize (Re.star r) + 1) + reSize (Re.star r) <
            (cs.length - i) * (reSize (Re.star r) + 1) + reSize (Re.star r) :=
          reMeasure_lt_pos (by omega) (by omega)
        obtain ⟨qs, hqs⟩ :=
          Option.isSome_iff_exists.mp (ih f (by omega) (Re.star r) (i + p.1) (by omega))
        simp [hqs]
      obtain ⟨qss, hqss⟩ := Option.isSome_iff_exists.mp htr
      simp [mtchF, hps, hqss]
    | group n r =>
      have hm1 : (cs.length - i) * (reSize r + 1) + reSize r <
          (cs.length - i) * (reSize (Re.group n r) + 1) + reSize (Re.group n r) :=
        reMeasure_lt (Nat.le_refl _) (by simp [reSize])
      obtain ⟨ps, hps⟩ := Option.isSome_iff_exists.mp (ih f (by omega) r i (by omega))
      simp [mtchF, hps]

/-- The matcher with its standard, sufficient fuel. -/
def mtch (cs : List Char) (ci : Bool) (re : Re) (i : Nat) :
    List (Nat × List (Nat × List Char)) :=
  (mtchF cs ci ((cs.length - i) * (reSize re + 1) + reSize re + 1) re i).getD []

/-- `RegExp#exec`-style scan: the leftmost position at or after `start`
where the pattern matches, with the first (highest-priority) match's
consumed length and captures.  The fuel `cs.length + 1 - start` is exact:
when it runs out the scan position has passed the end of the input, where
the result is `none` anyway. -/
def reFirstMatchGo (cs : List Char) (ci : Bool) (re : Re) :
    Nat → Nat → Option (Nat × Nat × List (Nat × List Char))
  | 0, _ => none
  | fuel + 1, start =>
    if start ≤ cs.length then
      match mtch cs ci re start with
      | [] => reFirstMatchGo cs ci re fuel (start + 1)
      | (d, caps) :: _ => some (start, d, caps)
    else none

/-- Leftmost match at or after `start`. -/
def reFirstMatch (cs : List Char) (ci : Bool) (re : Re) (start : Nat) :
    Option (Nat × Nat × List (Nat × List Char)) :=
  reFirstMatchGo cs ci re (cs.length + 1 - start) start

/-- A successful scan never reports a position before its starting one. -/
theorem reFirstMatchGo_ge (cs : List Char) (ci : Bool) (re : Re) :
    ∀ fuel start res, reFirstMatchGo cs ci re fuel start = some res → start ≤ res.1 := by
  intro fuel
  induction fuel with
  | zero => intro start res h; simp [reFirstMatchGo] at h
  | succ f ih =>
    intro start res h
    simp only [reFirstMatchGo] at h
    by_cases hs : start ≤ cs.length
    · rw [if_pos hs] at h
      cases hm : mtch cs ci re start with
      | nil =>
        rw [hm] at h
        have := ih (start + 1) res h
        omega
      | cons hd tl =>
        rw [hm] at h
        cases hd with
        | mk d caps =>
          cases h
          exact Nat.le_refl _
    · rw [if_neg hs] at h
      cases h

/-- `String#match` (no `g` flag): `none` when the pattern matches nowhere;
otherwise the JS match array as full match followed by the values of the
`ng` numbered groups (`none` for a group that did not participate). -/
def jsMatchArr (re : Re) (ng : Nat) (ci : Bool) (s : String) :
    Option (List (Option String)) :=
  match reFirstMatch s.data ci re 0 with
  | none => none
  | some (start, d, caps) =>
    some (some (String.mk ((s.data.drop start).take d)) ::
      (List.range ng).map (fun k => (List.lookup (k + 1) caps).map String.mk))

/-- A video rule: the class of the `a.<class>` selector, an optional link
pattern with its number of capture groups, and the embed template with the
`{0}` placeholder. -/
structure VideoRule where
  cls : String
  re : Option (Re × Nat)
  output : String

/-- The `a.youtube` link pattern:
`(?:(?:youtu\.be\/|v\/|vi\/|u\/\w\/|embed\/)|(?:(?:watch)?\?v(?:i)?=|&v(?:i)?=))([^#&?]*).*`
with the `i` flag. -/
def youtubeRe : Re :=
  .seq
    (.alt
      (.alt (litRe "youtu.be/")
        (.alt (litRe "v/")
          (.alt (litRe "vi/")
            (.alt (.seq (litRe "u/") (.seq wordCh (.chr '/')))
              (litRe "embed/")))))
      (.alt
        (.seq (optRe (litRe "watch"))
          (.seq (litRe "?v") (.seq (optRe (.chr 'i')) (.chr '='))))
        (.seq (litRe "&v") (.seq (optRe (.chr 'i')) (.chr '=')))))
    (.seq (.group 1 (.star (.cls [('#', '#'), ('&', '&'), ('?', '?')] true)))
      (.star .dot))

/-- The `a.vimeo` link pattern:
`vimeo.com\/(?:channels\/(?:\w+\/)?|groups\/(?:[^/]*)\/videos\/|album\/(?:\d+)\/video\/|)(\d+)(?:$|\/|\?)`
with the `i` flag (the dot after "vimeo" is unescaped in the source). -/
def vimeoRe : Re :=
  .seq (litRe "vimeo")
    (.seq .dot
      (.seq (litRe "com/")
        (.seq
          (.alt (.seq (litRe "channels/") (optRe (.seq (plusRe wordCh) (.chr '/'))))
            (.alt (.seq (litRe "groups/")
                (.seq (.star (.cls [('/', '/')] true)) (litRe "/videos/")))
              (.alt (.seq (litRe "album/") (.seq (plusRe digitCh) (litRe "/video/")))
                .eps)))
          (.seq (.group 1 (plusRe digitCh))
            (.alt .eol (.alt (.chr '/') (.chr '?')))))))

/-- The `a.dailymotion` link pattern:
`(?:dailymotion\.com(?:\/embed)?(?:\/video|\/hub)|dai\.ly)\/([0-9a-z]+)(?:[-_0-9a-zA-Z]+(?:#video=)?([a-z0-9]+)?)?`
with the `i` flag. -/
def dailymotionRe : Re :=
  .seq
    (.alt
      (.seq (litRe "dailymotion.com")
        (.seq (optRe (litRe "/embed")) (.alt (litRe "/video") (litRe "/hub"))))
      (litRe "dai.ly"))
    (.seq (.chr '/')
      (.seq (.group 1 (plusRe (.cls [('0', '9'), ('a', 'z')] false)))
        (optRe
          (.seq (plusRe (.cls [('-', '-'), ('_', '_'), ('0', '9'), ('a', 'z'), ('A', 'Z')] false))
            (.seq (optRe (litRe "#video="))
              (optRe (.group 2 (plusRe (.cls [('a', 'z'), ('0', '9')] false)))))))))

/-- The `videoRules` table, in source priority order. -/
def videoRules : List VideoRule :=
  [⟨"youtube", some (youtubeRe, 1),
    "<iframe width=\"640\" height=\"360\" src=\"https://www.youtube.com/embed/{0}?rel=0\" frameborder=\"0\" allowfullscreen></iframe>"⟩,
   ⟨"vimeo", some (vimeoRe, 1),
    "<iframe src=\"https://player.vimeo.com/video/{0}\" width=\"640\" height=\"360\" frameborder=\"0\" webkitallowfullscreen mozallowfullscreen allowfullscreen></iframe>"⟩,
   ⟨"dailymotion", some (dailymotionRe, 2),
    "<iframe width=\"640\" height=\"360\" src=\"//www.dailymotion.com/embed/video/{0}?endscreen-enable=false\" frameborder=\"0\" allowfullscreen></iframe>"⟩,
   ⟨"video", none,
    "<video width=\"640\" height=\"360\" controls preload=\"metadata\"><source src=\"{0}\" type=\"video/mp4\"></video>"⟩]

/-- Split a character list at the first occurrence of `pat`. -/
def findSplit : List Char → List Char → Option (List Char × List Char)
  | hay, pat =>
    if hay.take pat.length = pat then some ([], hay.drop pat.length)
    else
      match hay with
      | [] => none
      | h :: t => (findSplit t pat).map (fun p => (h :: p.1, p.2))

/-- `_.replace(s, pat, rep)`: replace the first occurrence of the plain
string `pat`. -/
def replaceFirst (s pat rep : String) : String :=
  match findSplit s.data pat.data with
  | none => s
  | some (pre, post) => String.mk (pre ++ rep.data ++ post)

/-- The body of the video `each` callback for one matched link element with
attributes `ats`.  With a link pattern, a missing `href` is the modelled
TypeError (`undefined.match`), returned as `none`; a non-matching href is
kept as-is (`match` returns null); on a match, the kept entries of the match
array are the truthy strings (empty strings and undefined groups are
dropped) and `_.last` of them is substituted — `undefined` printing as the
string "undefined" when everything was dropped, as with lodash `_.replace`.
Without a pattern the raw href (or "undefined") is substituted. -/
def applyRuleReplacement (r : VideoRule) (ats : List (String × String)) : Option DNode :=
  let href := List.lookup "href" ats
  match r.re with
  | some (re, ng) =>
    match href with
    | none => none
    | some link =>
      let originLink :=
        match jsMatchArr re ng true link with
        | none => link
        | some arr =>
          let filt := arr.filterMap (fun o =>
            match o with
            | some s => if s = "" then none else some s
            | none => none)
          filt.getLast?.getD "undefined"
      some (DNode.raw (replaceFirst r.output "{0}" originLink))
  | none => some (DNode.raw (replaceFirst r.output "{0}" (href.getD "undefined")))

mutual

/-- Apply one video rule to a node: an `a` element carrying the rule's class
is replaced (`replaceWith`) by the produced fragment; other elements
recurse through their children; `none` propagates the modelled TypeError. -/
def vApplyNode (r : VideoRule) : DNode → Option DNode
  | DNode.el t cl ats ch =>
    if t = "a" && cl.contains r.cls then applyRuleReplacement r ats
    else
      match vApplyList r ch with
      | none => none
      | some ch2 => some (DNode.el t cl ats ch2)
  | DNode.txt s => some (DNode.txt s)
  | DNode.raw s => some (DNode.raw s)

/-- Apply one video rule across a sibling list. -/
def vApplyList (r : VideoRule) : List DNode → Option (List DNode)
  | [] => some []
  | n :: ns =>
    match vApplyNode r n with
    | none => none
    | some n2 =>
      match vApplyList r ns with
      | none => none
      | some ns2 => some (n2 :: ns2)

end

/-- Rule 5 of `parseContent`: each video rule applied over the whole tree,
in table order (`_.forEach(videoRules, ...)`). -/
def stage6go : List VideoRule → List DNode → Option (List DNode)
  | [], l => some l
  | r :: rs, l =>
    match vApplyList r l with
    | none => none
    | some l2 => stage6go rs l2

/-- Rule 5 entry point. -/
def stage6 (l : List DNode) : Option (List DNode) := stage6go videoRules l

/-- The cheerio part of `parseContent`: load the rendered tree (given here
as the root's children, production of the out-of-scope markdown renderer),
return the empty document when there is no element child, otherwise run the
six rewrite rules in source order.  `none` models the only throwing path
(video link matched by a pattern rule but lacking `href`). -/
def parseContent (l : List DNode) : Option (List DNode) :=
  if (l.filter DNode.isElem).length < 1 then some []
  else
    match stage6 (stage5 (stage4 (stage3 (stage2List false (stage1 l))))) with
    | none => none
    | some l2 => some (stage7List l2)

/-- The `commentMeta` pattern `<!-- ?([a-zA-Z]+):(.*)-->` (no flags beside
`g`, which is modelled by the exec loop). -/
def metaRe : Re :=
  .seq (litRe "<!--")
    (.seq (optRe (.chr ' '))
      (.seq (.group 1 (plusRe (.cls [('a', 'z'), ('A', 'Z')] false)))
        (.seq (.chr ':')
          (.seq (.group 2 (.star .dot)) (litRe "-->")))))

/-- `_.toLower` restricted to the ASCII letters the key pattern can
capture. -/
def jsToLower (s : String) : String := String.mk (s.data.map Char.toLower)

/-- Whitespace trimmed by `_.trim` (the ASCII part relevant here). -/
def isSpaceChar (c : Char) : Bool :=
  c = ' ' || c = '\t' || c = '\n' || c = '\r' || c = '\x0b' || c = '\x0c'

/-- `_.trim`. -/
def jsTrim (s : String) : String :=
  String.mk (((s.data.dropWhile isSpaceChar).reverse.dropWhile isSpaceChar).reverse)

/-- `results[key] = value` on a JS object: update in place when the key
exists (keeping first-insertion order), append otherwise. -/
def upsert (m : List (String × String)) (k v : String) : List (String × String) :=
  if (List.lookup k m).isSome then
    m.map (fun p => if p.1 = k then (k, v) else p)
  else m ++ [(k, v)]

/-- `match[n]` as a string: the value of capture group `n`, or the empty
string when the group did not participate (as lodash `toLower`/`trim` turn
`undefined` into `""`). -/
def capStr (n : Nat) (caps : List (Nat × List Char)) : String :=
  ((List.lookup n caps).map String.mk).getD ""

/-- The `while ((match = commentMeta.exec(content)) !== null)` loop: find
the next match at or after `pos`, record the lowercased key and trimmed
value, continue after the match.  The `max d 1` advance only differs from
JS's `lastIndex` on a zero-width match, which this pattern cannot produce.
Fuel-indexed; `parseMetaGo_stable` shows the standard fuel is enough. -/
def parseMetaGo (cs : List Char) :
    Nat → Nat → List (String × String) → List (String × String)
  | 0, _, m => m
  | fuel + 1, pos, m =>
    if pos ≤ cs.length then
      match reFirstMatch cs false metaRe pos with
      | none => m
      | some (start, d, caps) =>
        parseMetaGo cs fuel (start + max d 1)
          (upsert m (jsToLower (capStr 1 caps)) (jsTrim (capStr 2 caps)))
    else m

/-- The sequence of matches the exec loop visits: each iteration's
`(index, length, captures)` triple, successive scans resuming after the
previous match. -/
def execMatchesF (cs : List Char) :
    Nat → Nat → List (Nat × Nat × List (Nat × List Char))
  | 0, _ => []
  | fuel + 1, pos =>
    if pos ≤ cs.length then
      match reFirstMatch cs false metaRe pos with
      | none => []
      | some (start, d, caps) => (start, d, caps) :: execMatchesF cs fuel (start + max d 1)
    else []

/-- A successful wrapped scan never reports a position before its starting
one. -/
theorem reFirstMatch_ge (cs : List Char) (ci : Bool) (re : Re) (start : Nat)
    (res : Nat × Nat × List (Nat × List Char))
    (h : reFirstMatch cs ci re start = some res) : start ≤ res.1 :=
  reFirstMatchGo_ge cs ci re _ start res h

/-- Fuel sufficiency for the exec loop: once the fuel covers the remaining
positions, adding more fuel does not change the result, because every
iteration advances the scan position by at least one. -/
theorem parseMetaGo_stable (cs : List Char) :
    ∀ fuel pos m, cs.length + 2 - pos ≤ fuel →
      parseMetaGo cs fuel pos m = parseMetaGo cs (fuel + 1) pos m := by
  intro fuel
  induction fuel with
  | zero =>
    intro pos m hle
    simp only [parseMetaGo]
    rw [if_neg (by omega)]
  | succ f ih =>
    intro pos m hle
    by_cases hs : pos ≤ cs.length
    · simp only [parseMetaGo]
      rw [if_pos hs, if_pos hs]
      cases hm : reFirstMatch cs false metaRe pos with
      | none => rfl
      | some res =>
        cases res with
        | mk start rest =>
          cases rest with
          | mk d caps =>
            have hge : pos ≤ start := reFirstMatch_ge cs false metaRe pos _ hm
            exact ih (start + max d 1) _ (by omega)
    · simp only [parseMetaGo]
      rw [if_neg hs, if_neg hs]

/-- `parseMeta(content)`: all `<!-- key: value -->` directives as a mapping
from lowercased key to trimmed value. -/
def parseMeta (content : String) : List (String × String) :=
  parseMetaGo content.data (content.data.length + 2) 0 []

mutual

/-- Number of `indent-h2` section containers in a subtree. -/
def cntIndentNode : DNode → Nat
  | .el _ cl _ ch => (if cl.contains "indent-h2" then 1 else 0) + cntIndentList ch
  | .txt _ => 0
  | .raw _ => 0

/-- Number of `indent-h2` section containers in a forest. -/
def cntIndentList : List DNode → Nat
  | [] => 0
  | n :: ns => cntIndentNode n + cntIndentList ns

end

/-- The two-element document `h2 "T"; p "x"`. -/
def c4input : List DNode :=
  [DNode.el "h2" [] [] [DNode.txt "T"], DNode.el "p" [] [] [DNode.txt "x"]]

/-- Its image under one pipeline pass: the paragraph enclosed once. -/
def c4once : List DNode :=
  [DNode.el "h2" [] [] [DNode.txt "T"],
   DNode.el "div" ["indent-h2"] [] [DNode.el "p" [] [] [DNode.txt "x"]]]

/-- Its image under a second pass: the container wrapped again. -/
def c4twice : List DNode :=
  [DNode.el "h2" [] [] [DNode.txt "T"],
   DNode.el "div" ["indent-h2"] []
     [DNode.el "div" ["indent-h2"] [] [DNode.el "p" [] [] [DNode.txt "x"]]]]

/-- C4, counterexample: the pipeline is not idempotent.  One pass over
`h2; p` encloses the paragraph in a `div.indent-h2`; a second pass wraps
that very container in a fresh `div.indent-h2`, a structural change. -/
theorem parseContent_not_idempotent :
    parseContent c4input = some c4once ∧ parseContent c4once = some c4twice ∧
      c4once ≠ c4twice := by
  refine ⟨rfl, rfl, ?_⟩
  intro h
  have h2 : (1 : Nat) = 2 := by
    have h3 := congrArg cntIndentList h
    rwa [show cntIndentList c4once = 1 from rfl,
      show cntIndentList c4twice = 2 from rfl] at h3
  omega

/-- C4, amended: a second application of the section-enclosure rule wraps
the container created by the first in a new container: for any H2 followed
by an `indent-h2` container, the H2 enclosure pass produces a nested
`indent-h2` container around it. -/
theorem encloseH2_rewraps (s : String) (cs : List DNode) :
    encloseList "h2" ["h1", "h2"] "indent-h2"
      [DNode.el "h2" [] [] [DNode.txt s], DNode.el "div" ["indent-h2"] [] cs] =
    [DNode.el "h2" [] [] [DNode.txt s],
     DNode.el "div" ["indent-h2"] []
       [DNode.el "div" ["indent-h2"] []
         (encloseList "h2" ["h1", "h2"] "indent-h2" cs)]] := rfl

/-- C5: a matched video link with no `href` attribute makes `parseContent`
throw — `cr(elm).attr('href')` is `undefined` and `originLink.match(...)`
is a TypeError, modelled by `none`.  The claim's "never raises" is violated
by the code on this enumerated malformed input. -/
theorem parseContent_missing_href_throws :
    parseContent [DNode.el "a" ["youtube"] [] [DNode.txt "watch"]] = none := rfl

/-- C7: applying the pipeline to an `a.youtube` link with href
`https://youtu.be/abc123` replaces the link by the embed fragment whose src
is `https://www.youtube.com/embed/abc123?rel=0`; the substituted identifier
`abc123` is the last non-empty entry of the pattern's match array. -/
theorem video_youtube_embed :
    parseContent
      [DNode.el "a" ["youtube"] [("href", "https://youtu.be/abc123")]
        [DNode.txt "Video"]] =
      some [DNode.raw
        "<iframe width=\"640\" height=\"360\" src=\"https://www.youtube.com/embed/abc123?rel=0\" frameborder=\"0\" allowfullscreen></iframe>"] ∧
    jsMatchArr youtubeRe 1 true "https://youtu.be/abc123" =
      some [some "youtu.be/abc123", some "abc123"] := ⟨rfl, rfl⟩

/-- An entry of `results[key] = value` is the new pair or an old entry. -/
theorem mem_upsert (m : List (String × String)) (k v k' v' : String)
    (h : (k', v') ∈ upsert m k v) : (k' = k ∧ v' = v) ∨ (k', v') ∈ m := by
  unfold upsert at h
  by_cases hk : (List.lookup k m).isSome
  · rw [if_pos hk] at h
    rcases List.mem_map.mp h with ⟨p, hp, hpe⟩
    by_cases hpk : p.1 = k
    · rw [if_pos hpk] at hpe
      cases hpe
      exact Or.inl ⟨rfl, rfl⟩
    · rw [if_neg hpk] at hpe
      rw [← hpe]
      exact Or.inr hp
  · rw [if_neg hk] at h
    rcases List.mem_append.mp h with h2 | h2
    · exact Or.inr h2
    · rcases List.mem_singleton.mp h2 with h3
      cases h3
      exact Or.inl ⟨rfl, rfl⟩

/-- The exec loop is the fold of `results[key] = value` updates over the
sequence of matches it visits. -/
theorem parseMetaGo_foldl (cs : List Char) :
    ∀ fuel pos m,
      parseMetaGo cs fuel pos m =
        (execMatchesF cs fuel pos).foldl
          (fun m2 t => upsert m2 (jsToLower (capStr 1 t.2.2)) (jsTrim (capStr 2 t.2.2)))
          m := by
  intro fuel
  induction fuel with
  | zero => intro pos m; rfl
  | succ f ih =>
    intro pos m
    simp only [parseMetaGo, execMatchesF]
    by_cases hs : pos ≤ cs.length
    · rw [if_pos hs, if_pos hs]
      cases hm : reFirstMatch cs false metaRe pos with
      | none => simp
      | some res =>
        obtain ⟨start, d, caps⟩ := res
        simp only [List.foldl_cons]
        exact ih (start + max d 1) _
    · rw [if_neg hs, if_neg hs]
      rfl

/-- A (fuelled) scan success means: the start position is inside the input
and the reported length and captures head the matcher's result there. -/
theorem reFirstMatchGo_some (cs : List Char) (ci : Bool) (re : Re) :
    ∀ fuel pos start d caps,
      reFirstMatchGo cs ci re fuel pos = some (start, d, caps) →
        start ≤ cs.length ∧ ∃ tl, mtch cs ci re start = (d, caps) :: tl := by
  intro fuel
  induction fuel with
  | zero => intro pos start d caps h; simp [reFirstMatchGo] at h
  | succ f ih =>
    intro pos start d caps h
    simp only [reFirstMatchGo] at h
    by_cases hs : pos ≤ cs.length
    · rw [if_pos hs] at h
      cases hm : mtch cs ci re pos with
      | nil =>
        rw [hm] at h
        exact ih _ _ _ _ h
      | cons hd tl =>
        rw [hm] at h
        cases hd with
        | mk d0 caps0 =>
          cases h
          exact ⟨hs, tl, hm⟩
    · rw [if_neg hs] at h
      cases h

/-- Every visited match is an actual scan result. -/
theorem execMatchesF_spec (cs : List Char) :
    ∀ fuel pos t, t ∈ execMatchesF cs fuel pos →
      ∃ p, reFirstMatch cs false metaRe p = some t := by
  intro fuel
  induction fuel with
  | zero => intro pos t h; simp [execMatchesF] at h
  | succ f ih =>
    intro pos t h
    simp only [execMatchesF] at h
    by_cases hs : pos ≤ cs.length
    · rw [if_pos hs] at h
      split at h
      · cases h
      · rename_i start d caps hm
        rcases List.mem_cons.mp h with rfl | h2
        · exact ⟨pos, hm⟩
        · exact ih _ _ h2
    · rw [if_neg hs] at h
      cases h

/-- An entry of the fold of updates is an original entry or comes from one
of the folded matches. -/
theorem foldl_upsert_mem :
    ∀ (l : List (Nat × Nat × List (Nat × List Char))) (m : List (String × String)) k v,
      (k, v) ∈ l.foldl
        (fun m2 t => upsert m2 (jsToLower (capStr 1 t.2.2)) (jsTrim (capStr 2 t.2.2))) m →
      (k, v) ∈ m ∨
        ∃ t ∈ l, k = jsToLower (capStr 1 t.2.2) ∧ v = jsTrim (capStr 2 t.2.2) := by
  intro l
  induction l with
  | nil => intro m k v h; exact Or.inl h
  | cons t ts ih =>
    intro m k v h
    simp only [List.foldl_cons] at h
    rcases ih _ k v h with h2 | ⟨t2, ht2, he⟩
    · rcases mem_upsert _ _ _ _ _ h2 with ⟨rfl, rfl⟩ | h3
      · exact Or.inr ⟨t, List.mem_cons_self _ _, rfl, rfl⟩
      · exact Or.inl h3
    · exact Or.inr ⟨t2, List.mem_cons_of_mem _ ht2, he⟩

/-- A successful lookup exhibits a member. -/
theorem lookup_mem_pair :
    ∀ (m : List (String × String)) (k v : String), List.lookup k m = some v → (k, v) ∈ m := by
  intro m
  induction m with
  | nil => intro k v h; simp [List.lookup] at h
  | cons p ps ih =>
    intro k v h
    cases p with
    | mk k0 v0 =>
      by_cases hk : (k == k0) = true
      · simp only [List.lookup, hk] at h
        have hkk : k = k0 := by simpa using hk
        subst hkk
        cases h
        exact List.mem_cons_self _ _
      · simp only [List.lookup, hk] at h
        exact List.mem_cons_of_mem _ (ih k v h)

/-- `results[key] = value` makes the key present. -/
theorem upsert_mem_key_self (m : List (String × String)) (k v : String) :
    ∃ v2, (k, v2) ∈ upsert m k v := by
  unfold upsert
  by_cases hk : (List.lookup k m).isSome
  · rw [if_pos hk]
    obtain ⟨v0, hv0⟩ := Option.isSome_iff_exists.mp hk
    exact ⟨v, List.mem_map.mpr ⟨(k, v0), lookup_mem_pair m k v0 hv0, by simp⟩⟩
  · rw [if_neg hk]
    exact ⟨v, List.mem_append.mpr (Or.inr (List.mem_singleton.mpr rfl))⟩

/-- `results[key] = value` keeps every present key present. -/
theorem upsert_mem_key_old (m : List (String × String)) (k v k2 : String)
    (h : ∃ v2, (k2, v2) ∈ m) : ∃ v3, (k2, v3) ∈ upsert m k v := by
  obtain ⟨v2, hv2⟩ := h
  unfold upsert
  by_cases hk : (List.lookup k m).isSome
  · rw [if_pos hk]
    by_cases hkk : k2 = k
    · subst hkk
      exact ⟨v, List.mem_map.mpr ⟨(k2, v2), hv2, by simp⟩⟩
    · exact ⟨v2, List.mem_map.mpr ⟨(k2, v2), hv2, by simp [hkk]⟩⟩
  · rw [if_neg hk]
    exact ⟨v2, List.mem_append.mpr (Or.inl hv2)⟩

/-- The fold of updates keeps every present key present. -/
theorem foldl_upsert_key_old :
    ∀ (l : List (Nat × Nat × List (Nat × List Char))) (m : List (String × String)) (k2 : String),
      (∃ v2, (k2, v2) ∈ m) →
      ∃ v3, (k2, v3) ∈ l.foldl
        (fun m2 t => upsert m2 (jsToLower (capStr 1 t.2.2)) (jsTrim (capStr 2 t.2.2))) m := by
  intro l
  induction l with
  | nil => intro m k2 h; exact h
  | cons t ts ih =>
    intro m k2 h
    simp only [List.foldl_cons]
    exact ih _ k2 (upsert_mem_key_old _ _ _ _ h)

/-- Inversion for `optTraverse`: each output element is the image of an
input element. -/
theorem optTraverse_mem_inv {α β : Type} (f : α → Option β) :
    ∀ (l : List α) (ys : List β), optTraverse f l = some ys →
      ∀ y ∈ ys, ∃ x ∈ l, f x = some y := by
  intro l
  induction l with
  | nil =>
    intro ys h y hy
    simp only [optTraverse] at h
    cases h
    cases hy
  | cons x xs ih =>
    intro ys h y hy
    simp only [optTraverse] at h
    split at h
    · cases h
    · rename_i y0 hfx
      split at h
      · cases h
      · rename_i ys0 hrec
        cases h
        rcases List.mem_cons.mp hy with rfl | h2
        · exact ⟨x, List.mem_cons_self _ _, hfx⟩
        · rcases ih ys0 hrec y h2 with ⟨x2, hx2, hfx2⟩
          exact ⟨x2, List.mem_cons_of_mem _ hx2, hfx2⟩

/-- Inversion for a successful `eps` match. -/
theorem mtchF_eps_mem (cs : List Char) (ci : Bool) :
    ∀ g i res, mtchF cs ci g .eps i = some res →
      ∀ d caps, (d, caps) ∈ res → d = 0 ∧ caps = [] := by
  intro g i res hs d caps hm
  obtain ⟨g2, rfl⟩ : ∃ g2, g = g2 + 1 := by
    cases g with
    | zero => simp [mtchF] at hs
    | succ g2 => exact ⟨g2, rfl⟩
  simp only [mtchF] at hs
  cases hs
  simpa using hm

/-- Inversion for a successful literal-character match. -/
theorem mtchF_chr_mem (cs : List Char) (ci : Bool) (c : Char) :
    ∀ g i res, mtchF cs ci g (.chr c) i = some res →
      ∀ d caps, (d, caps) ∈ res →
        d = 1 ∧ caps = [] ∧ ∃ x, cs[i]? = some x ∧ eqCi ci c x = true := by
  intro g i res hs d caps hm
  obtain ⟨g2, rfl⟩ : ∃ g2, g = g2 + 1 := by
    cases g with
    | zero => simp [mtchF] at hs
    | succ g2 => exact ⟨g2, rfl⟩
  simp only [mtchF] at hs
  split at hs
  · rename_i x hx
    cases hs
    by_cases he : eqCi ci c x = true
    · rw [if_pos he] at hm
      rcases List.mem_singleton.mp hm with h2
      have h3 : d = 1 ∧ caps = [] := by simpa using h2
      exact ⟨h3.1, h3.2, x, hx, he⟩
    · rw [if_neg he] at hm
      cases hm
  · cases hs
    cases hm

/-- Inversion for a successful character-class match. -/
theorem mtchF_cls_mem (cs : List Char) (ci : Bool) (rs : List (Char × Char)) (neg : Bool) :
    ∀ g i res, mtchF cs ci g (.cls rs neg) i = some res →
      ∀ d caps, (d, caps) ∈ res →
        d = 1 ∧ caps = [] ∧ ∃ x, cs[i]? = some x ∧ clsMatch ci rs neg x = true := by
  intro g i res hs d caps hm
  obtain ⟨g2, rfl⟩ : ∃ g2, g = g2 + 1 := by
    cases g with
    | zero => simp [mtchF] at hs
    | succ g2 => exact ⟨g2, rfl⟩
  simp only [mtchF] at hs
  split at hs
  · rename_i x hx
    cases hs
    by_cases he : clsMatch ci rs neg x = true
    · rw [if_pos he] at hm
      rcases List.mem_singleton.mp hm with h2
      have h3 : d = 1 ∧ caps = [] := by simpa using h2
      exact ⟨h3.1, h3.2, x, hx, he⟩
    · rw [if_neg he] at hm
      cases hm
  · cases hs
    cases hm

/-- Inversion for a successful `.` match. -/
theorem mtchF_dot_mem (cs : List Char) (ci : Bool) :
    ∀ g i res, mtchF cs ci g .dot i = some res →
      ∀ d caps, (d, caps) ∈ res → d = 1 ∧ caps = [] := by
  intro g i res hs d caps hm
  obtain ⟨g2, rfl⟩ : ∃ g2, g = g2 + 1 := by
    cases g with
    | zero => simp [mtchF] at hs
    | succ g2 => exact ⟨g2, rfl⟩
  simp only [mtchF] at hs
  split at hs
  · rename_i x hx
    cases hs
    by_cases he : (x = '\n' || x = '\r') = true
    · rw [if_pos he] at hm
      cases hm
    · rw [if_neg he] at hm
      rcases List.mem_singleton.mp hm with h2
      simpa using h2
  · cases hs
    cases hm

/-- Inversion for a successful `$` match. -/
theorem mtchF_eol_mem (cs : List Char) (ci : Bool) :
    ∀ g i res, mtchF cs ci g .eol i = some res →
      ∀ d caps, (d, caps) ∈ res → d = 0 ∧ caps = [] := by
  intro g i res hs d caps hm
  obtain ⟨g2, rfl⟩ : ∃ g2, g = g2 + 1 := by
    cases g with
    | zero => simp [mtchF] at hs
    | succ g2 => exact ⟨g2, rfl⟩
  simp only [mtchF] at hs
  cases hs
  by_cases hi : i < cs.length
  · rw [if_pos hi] at hm
    cases hm
  · rw [if_neg hi] at hm
    rcases List.mem_singleton.mp hm with h2
    simpa using h2

/-- Inversion for a successful concatenation match: it splits into a match
of the first part followed by a match of the second at the advanced
position, consumed lengths adding up and captures concatenated. -/
theorem mtchF_seq_mem (cs : List Char) (ci : Bool) (r1 r2 : Re) :
    ∀ g i res, mtchF cs ci g (.seq r1 r2) i = some res →
      ∀ d caps, (d, caps) ∈ res →
        ∃ g2 ps qs p1 c1 p2 c2, g = g2 + 1 ∧
          mtchF cs ci g2 r1 i = some ps ∧ (p1, c1) ∈ ps ∧
          mtchF cs ci g2 r2 (i + p1) = some qs ∧ (p2, c2) ∈ qs ∧
          d = p1 + p2 ∧ caps = c2 ++ c1 := by
  intro g i res hs d caps hm
  obtain ⟨g2, rfl⟩ : ∃ g2, g = g2 + 1 := by
    cases g with
    | zero => simp [mtchF] at hs
    | succ g2 => exact ⟨g2, rfl⟩
  simp only [mtchF] at hs
  split at hs
  · cases hs
  · rename_i ps hps
    split at hs
    · cases hs
    · rename_i qss hqss
      cases hs
      rcases List.mem_join.mp hm with ⟨s, hsmem, hys⟩
      rcases optTraverse_mem_inv _ _ _ hqss s hsmem with ⟨p, hp, hfp⟩
      split at hfp
      · cases hfp
      · rename_i qs hqs
        cases hfp
        rcases List.mem_map.mp hys with ⟨q, hq, hqe⟩
        obtain ⟨p1, c1⟩ := p
        obtain ⟨p2, c2⟩ := q
        obtain ⟨rfl, rfl⟩ : p1 + p2 = d ∧ c2 ++ c1 = caps := by simpa using hqe
        exact ⟨g2, ps, qs, p1, c1, p2, c2, rfl, hps, hp, hqs, hq, rfl, rfl⟩

/-- Inversion for a successful alternation match. -/
theorem mtchF_alt_mem (cs : List Char) (ci : Bool) (r1 r2 : Re) :
    ∀ g i res, mtchF cs ci g (.alt r1 r2) i = some res →
      ∀ p, p ∈ res →
        ∃ g2 ps qs, g = g2 + 1 ∧
          mtchF cs ci g2 r1 i = some ps ∧ mtchF cs ci g2 r2 i = some qs ∧
          (p ∈ ps ∨ p ∈ qs) := by
  intro g i res hs p hm
  obtain ⟨g2, rfl⟩ : ∃ g2, g = g2 + 1 := by
    cases g with
    | zero => simp [mtchF] at hs
    | succ g2 => exact ⟨g2, rfl⟩
  simp only [mtchF] at hs
  split at hs
  · cases hs
  · rename_i ps hps
    split at hs
    · cases hs
    · rename_i qs hqs
      cases hs
      exact ⟨g2, ps, qs, rfl, hps, hqs, List.mem_append.mp hm⟩

/-- Inversion for a successful star match: empty, or one strict-progress
round followed by a star match at the advanced position. -/
theorem mtchF_star_mem (cs : List Char) (ci : Bool) (r : Re) :
    ∀ g i res, mtchF cs ci g (.star r) i = some res →
      ∀ d caps, (d, caps) ∈ res →
        (d = 0 ∧ caps = []) ∨
        ∃ g2 ps qs p1 c1 p2 c2, g = g2 + 1 ∧
          mtchF cs ci g2 r i = some ps ∧ (p1, c1) ∈ ps ∧ 0 < p1 ∧
          mtchF cs ci g2 (.star r) (i + p1) = some qs ∧ (p2, c2) ∈ qs ∧
          d = p1 + p2 ∧ caps = c2 ++ c1 := by
  intro g i res hs d caps hm
  obtain ⟨g2, rfl⟩ : ∃ g2, g = g2 + 1 := by
    cases g with
    | zero => simp [mtchF] at hs
    | succ g2 => exact ⟨g2, rfl⟩
  simp only [mtchF] at hs
  split at hs
  · cases hs
  · rename_i ps hps
    split at hs
    · cases hs
    · rename_i qss hqss
      cases hs
      rcases List.mem_append.mp hm with h1 | h1
      · rcases List.mem_join.mp h1 with ⟨s, hsmem, hys⟩
        rcases optTraverse_mem_inv _ _ _ hqss s hsmem with ⟨p, hpf, hfp⟩
        have hpmem := List.mem_filter.mp hpf
        have hpc : 0 < p.1 := by
          have h2 := hpmem.2
          simp only [Bool.and_eq_true, decide_eq_true_eq] at h2
          exact h2.1
        split at hfp
        · cases hfp
        · rename_i qs hqs
          cases hfp
          rcases List.mem_map.mp hys with ⟨q, hq, hqe⟩
          obtain ⟨p1, c1⟩ := p
          obtain ⟨p2, c2⟩ := q
          obtain ⟨rfl, rfl⟩ : p1 + p2 = d ∧ c2 ++ c1 = caps := by simpa using hqe
          exact Or.inr ⟨g2, ps, qs, p1, c1, p2, c2, rfl, hps, hpmem.1, hpc, hqs, hq, rfl, rfl⟩
      · left
        rcases List.mem_singleton.mp h1 with h2
        simpa using h2

/-- Inversion for a successful group match: the recorded capture is exactly
the consumed substring. -/
theorem mtchF_group_mem (cs : List Char) (ci : Bool) (n : Nat) (r : Re) :
    ∀ g i res, mtchF cs ci g (.group n r) i = some res →
      ∀ d caps, (d, caps) ∈ res →
        ∃ g2 ps p1 c1, g = g2 + 1 ∧
          mtchF cs ci g2 r i = some ps ∧ (p1, c1) ∈ ps ∧
          d = p1 ∧ caps = (n, (cs.drop i).take p1) :: c1 := by
  intro g i res hs d caps hm
  obtain ⟨g2, rfl⟩ : ∃ g2, g = g2 + 1 := by
    cases g with
    | zero => simp [mtchF] at hs
    | succ g2 => exact ⟨g2, rfl⟩
  simp only [mtchF] at hs
  split at hs
  · cases hs
  · rename_i ps hps
    cases hs
    rcases List.mem_map.mp hm with ⟨p, hp, hpe⟩
    obtain ⟨p1, c1⟩ := p
    obtain ⟨rfl, rfl⟩ : p1 = d ∧ (n, (cs.drop i).take p1) :: c1 = caps := by simpa using hpe
    exact ⟨g2, ps, p1, c1, rfl, hps, hp, rfl, rfl⟩

/-- Whether a pattern contains no capture group. -/
def noGroups : Re → Bool
  | .group _ _ => false
  | .seq r1 r2 => noGroups r1 && noGroups r2
  | .alt r1 r2 => noGroups r1 && noGroups r2
  | .star r => noGroups r
  | _ => true

/-- A group-free pattern records no captures. -/
theorem mtchF_noGroups_caps (cs : List Char) (ci : Bool) :
    ∀ g re i res, noGroups re = true → mtchF cs ci g re i = some res →
      ∀ p ∈ res, p.2 = ([] : List (Nat × List Char)) := by
  intro g
  induction g using Nat.strong_induction_on with
  | _ g ih =>
    intro re i res hng hs p hp
    obtain ⟨d, caps⟩ := p
    cases re with
    | eps => exact (mtchF_eps_mem cs ci g i res hs d caps hp).2
    | chr c => exact (mtchF_chr_mem cs ci c g i res hs d caps hp).2.1
    | cls rs neg => exact (mtchF_cls_mem cs ci rs neg g i res hs d caps hp).2.1
    | dot => exact (mtchF_dot_mem cs ci g i res hs d caps hp).2
    | eol => exact (mtchF_eol_mem cs ci g i res hs d caps hp).2
    | seq r1 r2 =>
      rcases mtchF_seq_mem cs ci r1 r2 g i res hs d caps hp with
        ⟨g2, ps, qs, p1, c1, p2, c2, rfl, hps, hp1, hqs, hp2, rfl, rfl⟩
      have hng2 : noGroups r1 = true ∧ noGroups r2 = true := by
        simpa [noGroups] using hng
      have e1 := ih g2 (by omega) r1 i ps hng2.1 hps (p1, c1) hp1
      have e2 := ih g2 (by omega) r2 (i + p1) qs hng2.2 hqs (p2, c2) hp2
      simp at e1 e2
      simp [e1, e2]
    | alt r1 r2 =>
      rcases mtchF_alt_mem cs ci r1 r2 g i res hs (d, caps) hp with
        ⟨g2, ps, qs, rfl, hps, hqs, hor⟩
      have hng2 : noGroups r1 = true ∧ noGroups r2 = true := by
        simpa [noGroups] using hng
      rcases hor with h2 | h2
      · exact ih g2 (by omega) r1 i ps hng2.1 hps (d, caps) h2
      · exact ih g2 (by omega) r2 i qs hng2.2 hqs (d, caps) h2
    | star r =>
      rcases mtchF_star_mem cs ci r g i res hs d caps hp with
        ⟨_, h2⟩ | ⟨g2, ps, qs, p1, c1, p2, c2, rfl, hps, hp1, _, hqs, hp2, rfl, rfl⟩
      · exact h2
      · have hngr : noGroups r = true := by simpa [noGroups] using hng
        have e1 := ih g2 (by omega) r i ps hngr hps (p1, c1) hp1
        have e2 := ih g2 (by omega) (.star r) (i + p1) qs (by simpa [noGroups] using hng)
          hqs (p2, c2) hp2
        simp at e1 e2
        simp [e1, e2]
    | group n r => simp [noGroups] at hng

/-- Splitting a `take` of a sum into two adjacent chunks. -/
theorem take_chunk (cs : List Char) (i a b : Nat) :
    (cs.drop i).take (a + b) = (cs.drop i).take a ++ (cs.drop (i + a)).take b := by
  rw [List.take_add, List.drop_drop]

/-- A one-element `take` at a position holding `c`. -/
theorem drop_take_one (cs : List Char) (i : Nat) (c : Char) (h : cs[i]? = some c) :
    (cs.drop i).take 1 = [c] := by
  have hlt : i < cs.length := by
    by_contra hc
    rw [List.getElem?_eq_none (by omega)] at h
    cases h
  have h2 : cs[i] = c := by
    have h3 := List.getElem?_eq_getElem hlt
    rw [h3] at h
    exact Option.some.inj h
  rw [List.drop_eq_getElem_cons hlt]
  simp [h2]

/-- Every priority-list entry comes from a successful run of the fuelled
matcher. -/
theorem mtch_mem_mtchF (cs : List Char) (ci : Bool) (re : Re) (i : Nat)
    (p : Nat × List (Nat × List Char)) (h : p ∈ mtch cs ci re i) :
    ∃ g res, mtchF cs ci g re i = some res ∧ p ∈ res := by
  unfold mtch at h
  cases hm : mtchF cs ci ((cs.length - i) * (reSize re + 1) + reSize re + 1) re i with
  | none => rw [hm] at h; simp at h
  | some res =>
    rw [hm] at h
    exact ⟨_, res, hm, by simpa using h⟩

/-- A literal word matches itself exactly: it consumes its own length,
captures nothing, and the consumed substring is the word. -/
theorem strRe_mem (cs : List Char) :
    ∀ (w : List Char) g i res, mtchF cs false g (strRe w) i = some res →
      ∀ d caps, (d, caps) ∈ res →
        d = w.length ∧ caps = [] ∧ (cs.drop i).take w.length = w := by
  intro w
  induction w with
  | nil =>
    intro g i res hs d caps hm
    rcases mtchF_eps_mem cs false g i res hs d caps hm with ⟨rfl, rfl⟩
    exact ⟨rfl, rfl, by simp⟩
  | cons c w2 ih =>
    intro g i res hs d caps hm
    rcases mtchF_seq_mem cs false (.chr c) (strRe w2) g i res hs d caps hm with
      ⟨g2, ps, qs, p1, c1, p2, c2, rfl, hps, hp1, hqs, hp2, rfl, rfl⟩
    rcases mtchF_chr_mem cs false c g2 i ps hps p1 c1 hp1 with ⟨rfl, rfl, x, hx, hex⟩
    have hcx : c = x := by simpa [eqCi] using hex
    subst hcx
    rcases ih g2 (i + 1) qs hqs p2 c2 hp2 with ⟨rfl, rfl, hsub⟩
    refine ⟨by rw [List.length_cons]; omega, rfl, ?_⟩
    rw [List.length_cons, Nat.add_comm w2.length 1, take_chunk cs i 1 w2.length,
      drop_take_one cs i c hx, hsub]
    rfl

/-- The optional-space piece: zero or one space consumed, no captures,
and the consumed substring is that optional space. -/
theorem optSpace_mem (cs : List Char) :
    ∀ g i res, mtchF cs false g (optRe (.chr ' ')) i = some res →
      ∀ d caps, (d, caps) ∈ res →
        caps = [] ∧ ∃ sp, (sp = [] ∨ sp = [' ']) ∧ d = sp.length ∧
          (cs.drop i).take d = sp := by
  intro g i res hs d caps hm
  rcases mtchF_alt_mem cs false (.chr ' ') .eps g i res hs (d, caps) hm with
    ⟨g2, ps, qs, rfl, hps, hqs, hor⟩
  rcases hor with h2 | h2
  · rcases mtchF_chr_mem cs false ' ' g2 i ps hps d caps h2 with ⟨rfl, rfl, x, hx, hex⟩
    have hcx : (' ' : Char) = x := by simpa [eqCi] using hex
    refine ⟨rfl, [' '], Or.inr rfl, rfl, ?_⟩
    rw [drop_take_one cs i x hx, ← hcx]
  · rcases mtchF_eps_mem cs false g2 i qs hqs d caps h2 with ⟨rfl, rfl⟩
    exact ⟨rfl, [], Or.inl rfl, rfl, by simp⟩

/-- Everything a starred character class consumes satisfies the class. -/
theorem starCls_chars (cs : List Char) (ci : Bool) (rs : List (Char × Char)) (neg : Bool) :
    ∀ g i res, mtchF cs ci g (.star (.cls rs neg)) i = some res →
      ∀ d caps, (d, caps) ∈ res →
        ∀ x ∈ (cs.drop i).take d, clsMatch ci rs neg x = true := by
  intro g
  induction g using Nat.strong_induction_on with
  | _ g ih =>
    intro i res hs d caps hm x hx
    rcases mtchF_star_mem cs ci (.cls rs neg) g i res hs d caps hm with
      ⟨rfl, rfl⟩ | ⟨g2, ps, qs, p1, c1, p2, c2, rfl, hps, hp1, _, hqs, hp2, rfl, rfl⟩
    · simp at hx
    · rcases mtchF_cls_mem cs ci rs neg g2 i ps hps p1 c1 hp1 with ⟨rfl, rfl, x0, hx0, hcl⟩
      rw [take_chunk cs i 1 p2, drop_take_one cs i x0 hx0] at hx
      rcases List.mem_append.mp hx with h2 | h2
      · rcases List.mem_singleton.mp h2 with rfl
        exact hcl
      · exact ih g2 (by omega) (i + 1) qs hqs p2 c2 hp2 x h2

/-- `[...]+` consumes a non-empty substring of characters all satisfying
the class, and captures nothing. -/
theorem plusCls_mem (cs : List Char) (rs : List (Char × Char)) :
    ∀ g i res, mtchF cs false g (plusRe (.cls rs false)) i = some res →
      ∀ d caps, (d, caps) ∈ res →
        caps = [] ∧ (cs.drop i).take d ≠ [] ∧
        ∀ x ∈ (cs.drop i).take d, clsMatch false rs false x = true := by
  intro g i res hs d caps hm
  rcases mtchF_seq_mem cs false (.cls rs false) (.star (.cls rs false)) g i res hs d caps hm with
    ⟨g2, ps, qs, p1, c1, p2, c2, rfl, hps, hp1, hqs, hp2, rfl, rfl⟩
  rcases mtchF_cls_mem cs false rs false g2 i ps hps p1 c1 hp1 with ⟨rfl, rfl, x0, hx0, hcl⟩
  have hcaps : c2 = [] :=
    mtchF_noGroups_caps cs false g2 (.star (.cls rs false)) (i + 1) qs (by rfl) hqs (p2, c2) hp2
  subst hcaps
  refine ⟨rfl, ?_, ?_⟩
  · rw [take_chunk cs i 1 p2, drop_take_one cs i x0 hx0]
    simp
  · intro x hx
    rw [take_chunk cs i 1 p2, drop_take_one cs i x0 hx0] at hx
    rcases List.mem_append.mp hx with h2 | h2
    · rcases List.mem_singleton.mp h2 with rfl
      exact hcl
    · exact starCls_chars cs false rs false g2 (i + 1) qs hqs p2 [] hp2 x h2

/-- Shape of any successful match of the meta-comment pattern: the consumed
substring is `<!--`, an optional space, the letters-only name captured as
group 1, a colon, the group-2 value, and `-->`. -/
theorem metaRe_shape (cs : List Char) :
    ∀ g i res, mtchF cs false g metaRe i = some res →
      ∀ d caps, (d, caps) ∈ res →
        ∃ sp name val,
          (cs.drop i).take d =
            "<!--".data ++ sp ++ name ++ [':'] ++ val ++ "-->".data ∧
          (sp = [] ∨ sp = [' ']) ∧ name ≠ [] ∧
          (∀ x ∈ name, clsMatch false [('a', 'z'), ('A', 'Z')] false x = true) ∧
          List.lookup 1 caps = some name ∧ List.lookup 2 caps = some val := by
  intro g i res hs d caps hm
  rcases mtchF_seq_mem cs false _ _ g i res hs d caps hm with
    ⟨g1, psA, qsR1, pA, cA, p1r, c1r, hg1, hpsA, hpA, hqs1, hp1, rfl, rfl⟩
  rcases mtchF_seq_mem cs false _ _ g1 _ qsR1 hqs1 p1r c1r hp1 with
    ⟨g2, psO, qsR2, pO, cO, p2r, c2r, hg2, hpsO, hpO, hqs2, hp2, rfl, rfl⟩
  rcases mtchF_seq_mem cs false _ _ g2 _ qsR2 hqs2 p2r c2r hp2 with
    ⟨g3, psG1, qsR3, pN0, cN0, p3r, c3r, hg3, hpsG1, hpN, hqs3, hp3, rfl, rfl⟩
  rcases mtchF_seq_mem cs false _ _ g3 _ qsR3 hqs3 p3r c3r hp3 with
    ⟨g4, psC, qsR4, pC, cC, p4r, c4r, hg4, hpsC, hpC, hqs4, hp4, rfl, rfl⟩
  rcases mtchF_seq_mem cs false _ _ g4 _ qsR4 hqs4 p4r c4r hp4 with
    ⟨g5, psG2, psB, pV0, cG2, pB, cB, hg5, hpsG2, hpV, hpsB, hpB, rfl, rfl⟩
  rcases strRe_mem cs ("<!--".data) g1 i psA hpsA pA cA hpA with ⟨rfl, rfl, hsubA⟩
  rcases optSpace_mem cs g2 _ psO hpsO pO cO hpO with ⟨rfl, sp, hspor, rfl, hsubO⟩
  rcases mtchF_group_mem cs false 1 _ g3 _ psG1 hpsG1 pN0 cN0 hpN with
    ⟨gA, psP, pN, cP, hgA, hpsP, hpP, rfl, rfl⟩
  rcases plusCls_mem cs _ gA _ psP hpsP pN0 cP hpP with ⟨rfl, hne, hchars⟩
  rcases mtchF_chr_mem cs false _ g4 _ psC hpsC pC cC hpC with ⟨rfl, rfl, xc, hxc, hexc⟩
  have hxcol : (':' : Char) = xc := by simpa [eqCi] using hexc
  subst hxcol
  rcases mtchF_group_mem cs false 2 _ g5 _ psG2 hpsG2 pV0 cG2 hpV with
    ⟨gB, psS, pV, cS, hgB, hpsS, hpS, rfl, rfl⟩
  have hcS : cS = [] :=
    mtchF_noGroups_caps cs false gB (.star .dot) _ psS (by rfl) hpsS (pV0, cS) hpS
  subst hcS
  rcases strRe_mem cs ("-->".data) g5 _ psB hpsB pB cB hpB with ⟨rfl, rfl, hsubB⟩
  refine ⟨sp, _, List.take pV0 (List.drop (i + "<!--".data.length + sp.length + pN0 + 1) cs),
    ?_, hspor, hne, hchars, ?_, ?_⟩
  · rw [take_chunk, hsubA, take_chunk, hsubO, take_chunk, take_chunk,
      drop_take_one cs (i + "<!--".data.length + sp.length + pN0) ':' hxc,
      take_chunk, hsubB]
    simp [List.append_assoc]
  · simp [List.lookup]
  · simp [List.lookup]

/-- Every folded match leaves its lowercased key in the mapping. -/
theorem foldl_upsert_key_mem :
    ∀ (l : List (Nat × Nat × List (Nat × List Char))) (m : List (String × String)) t,
      t ∈ l →
      ∃ v3, (jsToLower (capStr 1 t.2.2), v3) ∈ l.foldl
        (fun m2 t2 => upsert m2 (jsToLower (capStr 1 t2.2.2)) (jsTrim (capStr 2 t2.2.2))) m := by
  intro l
  induction l with
  | nil => intro m t h; cases h
  | cons t0 ts ih =>
    intro m t h
    simp only [List.foldl_cons]
    rcases List.mem_cons.mp h with rfl | h2
    · exact foldl_upsert_key_old ts _ _ (upsert_mem_key_self _ _ _)
    · exact ih _ t h2

/-- C9: parseMeta maps the lowercased directive names to the trimmed values
of every comment directive matching the `key: value` pattern.  Conjunct 1:
the concrete example `<!-- title: Hello World -->` yields the entry
`("title", "Hello World")`.  Conjunct 2: for every input, parseMeta is
exactly the fold that records, for each match the exec loop visits, the
lowercased group-1 capture mapped to the trimmed group-2 capture.
Conjunct 3 (provenance): every entry `(k, v)` of the result comes from an
occurrence in the input of a directive substring
`<!--` + optional space + letters-only `name` + `:` + `val` + `-->`,
with `k` the lowercasing of `name` and `v` the trimming of `val`.
Conjunct 4 (completeness): every match the exec loop visits leaves its
lowercased name present as a key of the result. -/
theorem parseMeta_directives :
    (parseMeta "<!-- title: Hello World -->" = [("title", "Hello World")]) ∧
    (∀ content : String,
      parseMeta content =
        (execMatchesF content.data (content.data.length + 2) 0).foldl
          (fun m t => upsert m (jsToLower (capStr 1 t.2.2)) (jsTrim (capStr 2 t.2.2)))
          []) ∧
    (∀ (content : String) (k v : String), (k, v) ∈ parseMeta content →
      ∃ start sp name val,
        List.IsPrefix ("<!--".data ++ sp ++ name ++ [':'] ++ val ++ "-->".data)
          (content.data.drop start) ∧
        (sp = [] ∨ sp = [' ']) ∧ name ≠ [] ∧
        (∀ x ∈ name, ('a' ≤ x ∧ x ≤ 'z') ∨ ('A' ≤ x ∧ x ≤ 'Z')) ∧
        k = jsToLower (String.mk name) ∧ v = jsTrim (String.mk val)) ∧
    (∀ (content : String) (t : Nat × Nat × List (Nat × List Char)),
      t ∈ execMatchesF content.data (content.data.length + 2) 0 →
      ∃ v, (jsToLower (capStr 1 t.2.2), v) ∈ parseMeta content) := by
  refine ⟨rfl, ?_, ?_, ?_⟩
  · intro content
    exact parseMetaGo_foldl content.data (content.data.length + 2) 0 []
  · intro content k v hkv
    have hkv2 : (k, v) ∈ (execMatchesF content.data (content.data.length + 2) 0).foldl
        (fun m t => upsert m (jsToLower (capStr 1 t.2.2)) (jsTrim (capStr 2 t.2.2))) [] := by
      have h0 : (k, v) ∈ parseMetaGo content.data (content.data.length + 2) 0 [] := hkv
      rwa [parseMetaGo_foldl] at h0
    rcases foldl_upsert_mem _ _ k v hkv2 with h3 | ⟨t, ht, hk, hv⟩
    · cases h3
    · rcases execMatchesF_spec content.data _ _ t ht with ⟨p, hp⟩
      have hp2 : reFirstMatchGo content.data false metaRe (content.data.length + 1 - p) p =
          some (t.1, t.2.1, t.2.2) := hp
      obtain ⟨hle, tl, hmtch⟩ :=
        reFirstMatchGo_some content.data false metaRe _ p t.1 t.2.1 t.2.2 hp2
      have hmem : (t.2.1, t.2.2) ∈ mtch content.data false metaRe t.1 := by
        rw [hmtch]
        exact List.mem_cons_self _ _
      rcases mtch_mem_mtchF _ _ _ _ _ hmem with ⟨g, res, hg, hres⟩
      rcases metaRe_shape content.data g t.1 res hg t.2.1 t.2.2 hres with
        ⟨sp, name, val, hsub, hspor, hne, hchars, hl1, hl2⟩
      refine ⟨t.1, sp, name, val, ?_, hspor, hne, ?_, ?_, ?_⟩
      · rw [← hsub]
        exact List.take_prefix _ _
      · intro x hx
        have h4 := hchars x hx
        simpa [clsMatch] using h4
      · have hc1 : capStr 1 t.2.2 = String.mk name := by simp [capStr, hl1]
        rw [hk, hc1]
      · have hc2 : capStr 2 t.2.2 = String.mk val := by simp [capStr, hl2]
        rw [hv, hc2]
  · intro content t ht
    obtain ⟨v3, hv3⟩ :=
      foldl_upsert_key_mem (execMatchesF content.data (content.data.length + 2) 0) [] t ht
    refine ⟨v3, ?_⟩
    have h0 : (jsToLower (capStr 1 t.2.2), v3) ∈
        parseMetaGo content.data (content.data.length + 2) 0 [] := by
      rw [parseMetaGo_foldl]
      exact hv3
    exact h0

/-- Witness: instantiating the provenance conjunct at the concrete example
input and its produced entry. -/
theorem parseMeta_directives_witness :
    ∃ start sp name val,
      List.IsPrefix ("<!--".data ++ sp ++ name ++ [':'] ++ val ++ "-->".data)
        (("<!-- title: Hello World -->" : String).data.drop start) ∧
      (sp = [] ∨ sp = [' ']) ∧ name ≠ [] ∧
      (∀ x ∈ name, ('a' ≤ x ∧ x ≤ 'z') ∨ ('A' ≤ x ∧ x ≤ 'Z')) ∧
      "title" = jsToLower (String.mk name) ∧ "Hello World" = jsTrim (String.mk val) :=
  parseMeta_directives.2.2.1 "<!-- title: Hello World -->" "title" "Hello World"
    (by rw [parseMeta_directives.1]; exact List.mem_singleton.mpr rfl)

end Wiki
